import Mathlib

/-!
# Histogram query of `src/cpp/main.cpp`

A shallow embedding of `TreeQuery` and of the three-pass loop of `main`.

* `F64` embeds the `double` arithmetic the query uses (IEEE-754 binary64,
  round-to-nearest-even for `*`, `+`, `/`, `sqrt`; C `round`; the conversion
  `static_cast<long>`).
* `StdMap` embeds `std::map<long, long>` as a key-sorted association list;
  `StdMap.subscript` is `operator[]`, which default-inserts an absent key.
* `TTree` embeds what the query reads from ROOT's `TTree`: the entry count and
  the named branches.
* `long` arithmetic is 64-bit two's complement (`wrap64`).
* A run leaves defined behaviour (`Fault`) when it reads through a branch
  pointer that `SetBranchAddress` left null, or converts a NaN, an infinity or
  an out-of-range `double` to `long`.
* The readings of `steady_clock` are inputs of a pass (`Clock`).
* `TreeQuery` gives what one call writes as a function of the table.
  `TreeQueryRun` is the same call as a transformer of the state that persists
  between the calls made by `main` (`Machine`): the mutable fields of the tree
  object and the memory of the locals.
-/

/-! ## `double` -/

/-- IEEE-754 binary64 data: NaN, a signed infinity, or the signed dyadic number
`(-1)^neg * m * 2^e`. -/
inductive F64 where
  | nan : F64
  | inf (neg : Bool) : F64
  | fin (neg : Bool) (m : Nat) (e : Int) : F64
  deriving DecidableEq, Repr

namespace F64

/-- Binary digit count of `m`, with `fuel` halvings available. -/
def bitLenAux : Nat → Nat → Nat
  | 0, _ => 0
  | fuel + 1, m => if m = 0 then 0 else bitLenAux fuel (m / 2) + 1

/-- Number of binary digits of `m` (`0` for `0`). -/
def bitLen (m : Nat) : Nat := bitLenAux m m

/-- A finite datum is a binary64 number when its significand has at most 53 bits,
its last place is not below `2^-1074` and its magnitude is below `2^1024`. -/
def isBinary64 : F64 → Bool
  | nan => true
  | inf _ => true
  | fin _ m e => decide (m < 2 ^ 53) && decide (-1074 ≤ e) && decide (e + (bitLen m : Int) ≤ 1024)

/-- Finite result `m * 2^e`, or infinity when it is `2^1024` or more. -/
def mkFinite (neg : Bool) (m : Nat) (e : Int) : F64 :=
  if e + (bitLen m : Int) > 1024 then inf neg else fin neg m e

/-- Round the exact dyadic number `m * 2^e` to binary64: to nearest, ties to the
even significand; gradual underflow at `2^-1074`, overflow to infinity. -/
def roundNE (neg : Bool) (m : Nat) (e : Int) : F64 :=
  if m = 0 then fin neg 0 0
  else
    let E : Int := max (e + (bitLen m : Int) - 53) (-1074)
    if E ≤ e then mkFinite neg m e
    else
      let sh : Nat := (E - e).toNat
      let q := m / 2 ^ sh
      let r := m % 2 ^ sh
      let half := 2 ^ (sh - 1)
      let q1 := if half < r ∨ (r = half ∧ q % 2 = 1) then q + 1 else q
      if q1 = 2 ^ 53 then mkFinite neg (2 ^ 52) (E + 1) else mkFinite neg q1 E

/-- Conversion of a non-negative integer constant to `double`. -/
def ofNat (n : Nat) : F64 := roundNE false n 0

/-- Conversion of an integer to `double`. -/
def ofInt (i : Int) : F64 := roundNE (decide (i < 0)) i.natAbs 0

/-- Binary64 multiplication. -/
def mul : F64 → F64 → F64
  | nan, _ => nan
  | _, nan => nan
  | inf s, inf t => inf (s != t)
  | inf s, fin t m _ => if m = 0 then nan else inf (s != t)
  | fin s m _, inf t => if m = 0 then nan else inf (s != t)
  | fin s m e, fin t n f => roundNE (s != t) (m * n) (e + f)

/-- Binary64 addition. -/
def add : F64 → F64 → F64
  | nan, _ => nan
  | _, nan => nan
  | inf s, inf t => if s = t then inf s else nan
  | inf s, fin _ _ _ => inf s
  | fin _ _ _, inf t => inf t
  | fin s m e, fin t n f =>
    let e0 := min e f
    let a : Int := (if s then -1 else 1) * ((m * 2 ^ (e - e0).toNat : Nat) : Int)
    let b : Int := (if t then -1 else 1) * ((n * 2 ^ (f - e0).toNat : Nat) : Int)
    let c := a + b
    if c = 0 then fin (s && t) 0 0 else roundNE (decide (c < 0)) c.natAbs e0

/-- Binary64 division. The quotient is computed to at least 64 bits; a non-zero
remainder is recorded in one extra sticky bit before rounding. -/
def div : F64 → F64 → F64
  | nan, _ => nan
  | _, nan => nan
  | inf _, inf _ => nan
  | inf s, fin t _ _ => inf (s != t)
  | fin s _ _, inf t => fin (s != t) 0 0
  | fin s m e, fin t n f =>
    if n = 0 then (if m = 0 then nan else inf (s != t))
    else if m = 0 then fin (s != t) 0 0
    else
      let k := bitLen n + 64
      let q := (m * 2 ^ k) / n
      let r := (m * 2 ^ k) % n
      if r = 0 then roundNE (s != t) q (e - f - k)
      else roundNE (s != t) (2 * q + 1) (e - f - k - 1)

/-- Integer square root scan: `r` holds the bits above position `k`. -/
def isqrtAux (n : Nat) : Nat → Nat → Nat
  | 0, r => r
  | k + 1, r => isqrtAux n k (if (r + 2 ^ k) * (r + 2 ^ k) ≤ n then r + 2 ^ k else r)

/-- Integer square root, `⌊√n⌋`. -/
def isqrt (n : Nat) : Nat := isqrtAux n (bitLen n / 2 + 1) 0

/-- Binary64 `sqrt` (correctly rounded). The radicand is scaled by an even power
of two so that the integer root has at least 64 bits; inexactness is recorded
in one extra sticky bit before rounding. -/
def sqrt : F64 → F64
  | nan => nan
  | inf false => inf false
  | inf true => nan
  | fin s m e =>
    if m = 0 then fin s 0 0
    else if s then nan
    else
      let t : Nat := 128 + (e % 2).toNat
      let M := m * 2 ^ t
      let r := isqrt M
      if r * r = M then roundNE false r ((e - t) / 2)
      else roundNE false (2 * r + 1) ((e - t) / 2 - 1)

/-- C `round`: nearest integer value, halfway cases away from zero. -/
def round : F64 → F64
  | nan => nan
  | inf s => inf s
  | fin s m e =>
    if 0 ≤ e then fin s m e
    else fin s ((2 * m + 2 ^ (-e).toNat) / (2 * 2 ^ (-e).toNat)) 0

/-- Integer part of the magnitude `m * 2^e`. -/
def truncNat (m : Nat) (e : Int) : Nat :=
  if 0 ≤ e then m * 2 ^ e.toNat else m / 2 ^ (-e).toNat

/-- Conversion `static_cast<long>`: truncation toward zero; the conversion is
undefined (`none`) for NaN, infinities and values outside the range of `long`. -/
def toLong : F64 → Option Int
  | nan => none
  | inf _ => none
  | fin s m e =>
    let v : Int := if s then -(truncNat m e : Int) else (truncNat m e : Int)
    if -(2 : Int) ^ 63 ≤ v ∧ v < (2 : Int) ^ 63 then some v else none

/-- Value of a finite datum as a rational number. -/
def toRat : F64 → Option ℚ
  | nan => none
  | inf _ => none
  | fin s m e => some ((if s then -1 else 1) * (m : ℚ) * (2 : ℚ) ^ e)

end F64

/-! ## `long` -/

/-- Two's-complement reduction of an integer to the range of a 64-bit `long`. -/
def wrap64 (v : Int) : Int := (v + 2 ^ 63) % 2 ^ 64 - 2 ^ 63

/-! ## The per-row computation of `TreeQuery` (lines 68-69) -/

/-- Line 68:
`double magnitude = sqrt((h1_px * h1_px) + (h1_py * h1_py) + (h1_pz * h1_pz));` -/
def magnitude (h1_px h1_py h1_pz : F64) : F64 :=
  F64.sqrt (F64.add (F64.add (F64.mul h1_px h1_px) (F64.mul h1_py h1_py)) (F64.mul h1_pz h1_pz))

/-- The operand of the product in line 69:
`static_cast<long>(round(magnitude/10000))`. -/
def quotient (mag : F64) : Option Int :=
  F64.toLong (F64.round (F64.div mag (F64.ofInt 10000)))

/-- Line 69: `long bucket = static_cast<long>(round(magnitude/10000))*10000;`
with the product taken in 64-bit `long` arithmetic. -/
def bucketOf (mag : F64) : Option Int :=
  (quotient mag).map (fun q => wrap64 (q * 10000))

/-- Bucket key of a row with column values `(h1_px, h1_py, h1_pz)`. -/
def bucket (h1_px h1_py h1_pz : F64) : Option Int :=
  bucketOf (magnitude h1_px h1_py h1_pz)

/-! ## `std::map<long, long>` -/

/-- The container `std::map<long, long>`: its entries, in ascending key order. -/
abbrev StdMap := List (Int × Int)

namespace StdMap

/-- The access `m[k]` followed by an update `f` of the mapped value. As
`operator[]` does, an absent key is first inserted with the value-initialised
count `0`, at its place in the key order. -/
def subscript (k : Int) (f : Int → Int) : StdMap → StdMap
  | [] => [(k, f 0)]
  | (k', v) :: rest =>
    if k < k' then (k, f 0) :: (k', v) :: rest
    else if k = k' then (k', f v) :: rest
    else (k', v) :: subscript k f rest

/-- Lookup without insertion (`find`): the count stored under `k`, if any. -/
def find (k : Int) : StdMap → Option Int
  | [] => none
  | (k', v) :: rest => if k = k' then some v else find k rest

/-- The member `size()`: number of entries. -/
def size (m : StdMap) : Nat := m.length

/-- The statement `buckets[bucket] += 1;` on `long` counts. -/
def increment (m : StdMap) (b : Int) : StdMap :=
  subscript b (fun c => wrap64 (c + 1)) m

/-- The read access `m[k]`: the map after the access and the value read. -/
def readAt (k : Int) (m : StdMap) : StdMap × Int :=
  (subscript k id m, ((subscript k id m).find k).getD 0)

end StdMap

/-! ## The table -/

/-- What `TreeQuery` reads from a ROOT `TTree`: the entry count returned by
`GetEntries()` and, per branch name, the column of `double` values indexed by
entry number (`none` when the tree has no branch of that name). -/
structure TTree where
  nEntries : Nat
  branch : String → Option (Nat → F64)

/-- A tree holding the three momentum columns of the given rows. -/
def TTree.ofRows (rows : List (F64 × F64 × F64)) : TTree where
  nEntries := rows.length
  branch := fun name =>
    if name = "H1_PX" then some (fun i => (rows.getD i (F64.nan, F64.nan, F64.nan)).1)
    else if name = "H1_PY" then some (fun i => (rows.getD i (F64.nan, F64.nan, F64.nan)).2.1)
    else if name = "H1_PZ" then some (fun i => (rows.getD i (F64.nan, F64.nan, F64.nan)).2.2)
    else none

/-- Ways in which a pass leaves defined behaviour. -/
inductive Fault where
  /-- `GetEntry` called through a branch pointer that is still `nullptr`. -/
  | nullBranch : Fault
  /-- `static_cast<long>` applied to a NaN, an infinity or an out-of-range value. -/
  | undefinedConversion : Fault
  deriving DecidableEq, Repr

/-! ## `TreeQuery` -/

/-- Lines 64-69 for one entry. The three branch pointers are the ones lines 48-50
obtained from `SetBranchAddress`, whose status result the code discards: for an
unknown branch name the pointer stays `nullptr`. -/
def rowBucketOf (br_h1_px br_h1_py br_h1_pz : Option (Nat → F64)) (entryId : Nat) :
    Except Fault Int :=
  match br_h1_px, br_h1_py, br_h1_pz with
  | some px, some py, some pz =>
    match bucket (px entryId) (py entryId) (pz entryId) with
    | some b => .ok b
    | none => .error .undefinedConversion
  | _, _, _ => .error .nullBranch

/-- Bucket key of entry `entryId` of `tree`. -/
def TTree.rowBucket (tree : TTree) (entryId : Nat) : Except Fault Int :=
  rowBucketOf (tree.branch "H1_PX") (tree.branch "H1_PY") (tree.branch "H1_PZ") entryId

/-- One iteration of the loop of lines 56-71: read the entry (`LoadTree` and the
three `GetEntry` calls), compute its bucket and execute `buckets[bucket] += 1;`. -/
def scanStep (tree : TTree) (buckets : StdMap) (entryId : Nat) : Except Fault StdMap :=
  match tree.rowBucket entryId with
  | .ok b => .ok (buckets.increment b)
  | .error f => .error f

/-- The loop `for (entryId = 0; entryId < nEntries; ++entryId)` run on the given
map, over the entry numbers `0, 1, ..., nEntries - 1` in ascending order. -/
def scanFrom (tree : TTree) (buckets : StdMap) : List Nat → Except Fault StdMap
  | [] => .ok buckets
  | entryId :: rest =>
    match scanStep tree buckets entryId with
    | .ok buckets1 => scanFrom tree buckets1 rest
    | .error f => .error f

/-- Lines 52-71: `std::map<long, long> buckets;` starts empty and the loop runs
over all entries. -/
def scanLoop (tree : TTree) : Except Fault StdMap :=
  scanFrom tree [] (List.range tree.nEntries)

/-- A line written to standard output. -/
inductive OutLine where
  /-- The listing line `<bucket>,<cnt>`. -/
  | entry (bucketKey cnt : Int) : OutLine
  /-- The summary line `found <size> buckets with cnt[0] <cnt0>`. -/
  | summary (size : Nat) (cnt0 : Int) : OutLine
  /-- The line `Runtime-Initialization: <us>us`. -/
  | runtimeInit (us : Int) : OutLine
  /-- The line `Runtime-Analysis: <us>us`. -/
  | runtimeAnalysis (us : Int) : OutLine
  /-- The report printed by `ps->Print()`. -/
  | perfStats : OutLine
  /-- The line `run <i> total time: <ms>ms` of `main`. -/
  | runTotal (i : Nat) (ms : Int) : OutLine
  deriving DecidableEq, Repr

/-- The three readings of `steady_clock::now()` taken by one pass, in
microseconds. -/
structure Clock where
  ts_init : Int
  ts_first : Int
  ts_end : Int

/-- The listing loop of lines 73-75: one line per map entry, in iteration
order. -/
def listing (buckets : StdMap) : List OutLine :=
  buckets.map (fun p => OutLine.entry p.1 p.2)

/-- The summary statement of line 77. The operands of the `<<` chain are
evaluated left to right (the function needs C++17 for its structured binding,
and C++17 sequences them so): `buckets.size()` is read before `buckets[0]`
default-inserts key `0`. -/
def summaryLine (buckets : StdMap) : OutLine :=
  let size := buckets.size
  let cnt0 := (StdMap.readAt 0 buckets).2
  OutLine.summary size cnt0

/-- Lines 72-90: what a pass writes once the scan loop has built `buckets`: the
listing when `show` is set, the summary line, the two timing lines, and the I/O
report when `measure` is set. -/
def report (buckets : StdMap) (measure «show» : Bool) (clk : Clock) : List OutLine :=
  (if «show» then listing buckets else [])
    ++ [summaryLine buckets,
        OutLine.runtimeInit (clk.ts_first - clk.ts_init),
        OutLine.runtimeAnalysis (clk.ts_end - clk.ts_first)]
    ++ (if measure then [OutLine.perfStats] else [])

/-- The function `TreeQuery(tree, measure, show)`: the lines it writes, or the
fault it runs into. Every line is written after the scan loop, and nothing after
the loop can fault, so a faulting pass has written nothing. -/
def TreeQuery (tree : TTree) (measure «show» : Bool) (clk : Clock) :
    Except Fault (List OutLine) :=
  match scanLoop tree with
  | .error f => .error f
  | .ok buckets => .ok (report buckets measure «show» clk)

/-! ## `TreeQuery` on the state that persists between calls

`main` calls `TreeQuery` three times on the same `TTree` object and in the same
stack area. `Machine` holds what one call leaves behind for the next: the
mutable fields of the tree object and the memory of the locals of `TreeQuery`.
`TreeQueryRun` is `TreeQuery` as a transformer of that state. -/

/-- Where a branch address can point: one of the three `double` locals of
`TreeQuery`, or memory outside its frame. -/
inductive Slot where
  | h1_px : Slot
  | h1_py : Slot
  | h1_pz : Slot
  | elsewhere : Slot
  deriving DecidableEq, Repr

/-- A branch object `TBranch`: its name and its column of values. -/
structure TBranch where
  name : String
  column : Nat → F64

/-- The state one call of `TreeQuery` finds and leaves: the entry last loaded
(`LoadTree`), the address set for each branch (`SetBranchAddress`), the number
of `TTreePerfStats` recorders created so far, and the memory of the locals
`h1_px`, `h1_py`, `h1_pz` (declared without initialiser, lines 44-46) and
`buckets`. -/
structure Machine where
  fReadEntry : Int
  fAddress : String → Option Slot
  fPerfStats : Nat
  h1_px : F64
  h1_py : F64
  h1_pz : F64
  buckets : StdMap

/-- A write of `v` through an address. -/
def Machine.store (m : Machine) : Slot → F64 → Machine
  | Slot.h1_px, v => { m with h1_px := v }
  | Slot.h1_py, v => { m with h1_py := v }
  | Slot.h1_pz, v => { m with h1_pz := v }
  | Slot.elsewhere, _ => m

/-- The call `tree->SetBranchAddress(name, &slot, &br)`: for a branch of the tree
the address is recorded and `br` points to the branch; for an unknown name
nothing is recorded and `br` stays `nullptr`. The status result is discarded. -/
def SetBranchAddress (tree : TTree) (name : String) (slot : Slot) (m : Machine) :
    Machine × Option TBranch :=
  match tree.branch name with
  | some column =>
    ({ m with fAddress := fun n => if n = name then some slot else m.fAddress n },
      some ⟨name, column⟩)
  | none => (m, none)

/-- The call `tree->LoadTree(entryId)`. -/
def LoadTree (entryId : Nat) (m : Machine) : Machine :=
  { m with fReadEntry := (entryId : Int) }

/-- The call `br->GetEntry(entryId)`: the value of the entry is written through
the address set for the branch; a call through `nullptr` is a fault. -/
def GetEntry (br : Option TBranch) (entryId : Nat) (m : Machine) : Except Fault Machine :=
  match br with
  | none => .error .nullBranch
  | some b =>
    match m.fAddress b.name with
    | some slot => .ok (m.store slot (b.column entryId))
    | none => .ok m

/-- The loop body, lines 62-70, on the state. -/
def loopBody (br_h1_px br_h1_py br_h1_pz : Option TBranch) (m : Machine) (entryId : Nat) :
    Except Fault Machine :=
  match GetEntry br_h1_px entryId (LoadTree entryId m) with
  | .error f => .error f
  | .ok m1 =>
    match GetEntry br_h1_py entryId m1 with
    | .error f => .error f
    | .ok m2 =>
      match GetEntry br_h1_pz entryId m2 with
      | .error f => .error f
      | .ok m3 =>
        match bucket m3.h1_px m3.h1_py m3.h1_pz with
        | none => .error .undefinedConversion
        | some b => .ok { m3 with buckets := m3.buckets.increment b }

/-- The loop of lines 56-71 on the state, over the given entry numbers. -/
def loopFrom (br_h1_px br_h1_py br_h1_pz : Option TBranch) (m : Machine) :
    List Nat → Except Fault Machine
  | [] => .ok m
  | entryId :: rest =>
    match loopBody br_h1_px br_h1_py br_h1_pz m entryId with
    | .ok m1 => loopFrom br_h1_px br_h1_py br_h1_pz m1 rest
    | .error f => .error f

/-- The function `TreeQuery(tree, measure, show)` on the state: line 24 creates a
recorder when `measure` is set, lines 48-50 bind the three branches to the
locals, line 55 constructs `buckets` empty, lines 56-71 scan, lines 72-90 write
the report; line 77 leaves key `0` inserted in `buckets`. -/
def TreeQueryRun (tree : TTree) (measure «show» : Bool) (clk : Clock) (m : Machine) :
    Except Fault (Machine × List OutLine) :=
  let m0 := if measure then { m with fPerfStats := m.fPerfStats + 1 } else m
  let b1 := SetBranchAddress tree "H1_PX" Slot.h1_px m0
  let b2 := SetBranchAddress tree "H1_PY" Slot.h1_py b1.1
  let b3 := SetBranchAddress tree "H1_PZ" Slot.h1_pz b2.1
  match loopFrom b1.2 b2.2 b3.2 { b3.1 with buckets := [] } (List.range tree.nEntries) with
  | .error f => .error f
  | .ok m5 =>
    .ok ({ m5 with buckets := (StdMap.readAt 0 m5.buckets).1 },
      report m5.buckets measure «show» clk)

/-- The loop of `main` (lines 106-111) from pass `i` on, `n` passes left, on the
state: each pass calls `TreeQuery(tree, argc >= 3, argc >= 4)` on the state the
pass before left, and then writes its total time. The clock readings of pass
`i` are `clk i`, its total time `total i`. -/
def mainLoop (tree : TTree) (argc : Nat) (clk : Nat → Clock) (total : Nat → Int) :
    Nat → Nat → Machine → Except Fault (Machine × List OutLine)
  | _, 0, m => .ok (m, [])
  | i, n + 1, m =>
    match TreeQueryRun tree (decide (3 ≤ argc)) (decide (4 ≤ argc)) (clk i) m with
    | .error f => .error f
    | .ok r =>
      match mainLoop tree argc clk total (i + 1) n r.1 with
      | .error f => .error f
      | .ok r2 => .ok (r2.1, r.2 ++ [OutLine.runTotal i (total i)] ++ r2.2)

/-- The three passes of `main`, `for (auto i = 0; i != 3; ++i)`, started in the
state `m`. -/
def mainPasses (tree : TTree) (argc : Nat) (clk : Nat → Clock) (total : Nat → Int)
    (m : Machine) : Except Fault (Machine × List OutLine) :=
  mainLoop tree argc clk total 0 3 m

/-! ## Vocabulary of the statements -/

/-- The class invariant of `std::map` is stated on the keys in iteration order. -/
def StdMap.keys (m : StdMap) : List Int := m.map Prod.fst

/-- Keys strictly ascending: the order in which `std::map` iterates. -/
def StdMap.Ordered (m : StdMap) : Prop := (StdMap.keys m).Pairwise (· < ·)

/-- Sum of the counts stored in a map. -/
def StdMap.total (m : StdMap) : Int := (m.map Prod.snd).sum

/-- The map the scan loop builds from the bucket keys of the rows, taken in row
order. -/
def hist (ks : List Int) : StdMap := ks.foldl StdMap.increment []

/-- Bucket key of a row given by its three column values. -/
def rowKey (r : F64 × F64 × F64) : Option Int := bucket r.1 r.2.1 r.2.2

/-- The bucket key is defined for every row of the tree: the three branches
exist and no row leads to an undefined conversion. -/
def TTree.KeysDefined (tree : TTree) : Prop :=
  ∀ i, i < tree.nEntries → ∃ b, tree.rowBucket i = .ok b

/-- The bucket keys the rows of the tree produce, in row order. -/
def TTree.rowKeys (tree : TTree) : List Int :=
  (List.range tree.nEntries).filterMap (fun i => (tree.rowBucket i).toOption)

/-- The `(bucket, count)` pairs of the listing lines of an output, in order. -/
def listedEntries (out : List OutLine) : List (Int × Int) :=
  out.filterMap (fun l => match l with
    | OutLine.entry b c => some (b, c)
    | _ => none)

/-- The `(size, cnt0)` pairs of the summary lines of an output, in order. -/
def summaries (out : List OutLine) : List (Nat × Int) :=
  out.filterMap (fun l => match l with
    | OutLine.summary n c => some (n, c)
    | _ => none)

/-- The branches among `H1_PX`, `H1_PY`, `H1_PZ` that the tree has are bound to
the locals `h1_px`, `h1_py`, `h1_pz`. -/
def Machine.Bound (m : Machine) (tree : TTree) : Prop :=
  ((tree.branch "H1_PX").isSome → m.fAddress "H1_PX" = some Slot.h1_px)
    ∧ ((tree.branch "H1_PY").isSome → m.fAddress "H1_PY" = some Slot.h1_py)
    ∧ ((tree.branch "H1_PZ").isSome → m.fAddress "H1_PZ" = some Slot.h1_pz)

/-- What a pass shows of the histogram: the listed `(bucket, count)` pairs and
the values of the summary line. -/
def observed (r : Machine × List OutLine) : List (Int × Int) × List (Nat × Int) :=
  (listedEntries r.2, summaries r.2)

/-- A state left by an earlier run: a stale map in the place of `buckets`, stale
values in the three locals, addresses pointing elsewhere. -/
def staleMachine : Machine where
  fReadEntry := 7
  fAddress := fun _ => some Slot.elsewhere
  fPerfStats := 2
  h1_px := F64.nan
  h1_py := F64.inf true
  h1_pz := F64.ofNat 123456
  buckets := [(0, 5), (30000, 9)]

/-- The formula of the specification's bucketizer, in `double` arithmetic:
`round(magnitude / 10000.0) * 10000`, then truncated to a 64-bit integer. -/
def bucketizeSpec (x y z : F64) : Option Int :=
  F64.toLong (F64.mul (F64.round (F64.div (magnitude x y z) (F64.ofInt 10000))) (F64.ofInt 10000))

/-! ## Sample inputs -/

/-- Three rows whose bucket keys are 20000, 0 and 10000, in that order. -/
def sampleRows : List (F64 × F64 × F64) :=
  [(F64.ofNat 20000, F64.ofNat 0, F64.ofNat 0),
   (F64.ofNat 0, F64.ofNat 0, F64.ofNat 0),
   (F64.ofNat 6000, F64.ofNat 8000, F64.ofNat 0)]

/-- The rows of `sampleRows` in another order. -/
def sampleRowsShuffled : List (F64 × F64 × F64) :=
  [(F64.ofNat 6000, F64.ofNat 8000, F64.ofNat 0),
   (F64.ofNat 20000, F64.ofNat 0, F64.ofNat 0),
   (F64.ofNat 0, F64.ofNat 0, F64.ofNat 0)]

/-- Four rows, two of which fall into bucket 10000 and none into bucket 0. -/
def sampleRowsNoZero : List (F64 × F64 × F64) :=
  [(F64.ofNat 6000, F64.ofNat 8000, F64.ofNat 0),
   (F64.ofNat 3000, F64.ofNat 4000, F64.ofNat 0),
   (F64.ofNat 20000, F64.ofNat 0, F64.ofNat 0),
   (F64.ofNat 0, F64.ofNat 30000, F64.ofNat 40000)]

/-- A tree without rows and without the branch `H1_PX`. -/
def emptyTreeWithoutPX : TTree where
  nEntries := 0
  branch := fun name =>
    if name = "H1_PY" then some (fun _ => F64.ofNat 0)
    else if name = "H1_PZ" then some (fun _ => F64.ofNat 0)
    else none

/-- A tree with one row and without the branch `H1_PZ`. -/
def oneRowTreeWithoutPZ : TTree where
  nEntries := 1
  branch := fun name =>
    if name = "H1_PX" then some (fun _ => F64.ofNat 6000)
    else if name = "H1_PY" then some (fun _ => F64.ofNat 8000)
    else none

/-- Clock readings used in the sample runs. -/
def sampleClock : Clock := ⟨0, 5, 9⟩

/-- A datum that is not negative: NaN, `+∞`, a finite datum with clear sign bit,
or a zero of either sign. -/
def F64.NonNeg : F64 → Prop
  | F64.nan => True
  | F64.inf s => s = false
  | F64.fin s m _ => s = false ∨ m = 0

/-- The largest operand `q` for which `q * 10000` still fits a 64-bit `long`. -/
def maxQuotient : Int := 922337203685477

/-- A row whose momentum is `2^64` along the first axis. -/
def hugeRow : F64 × F64 × F64 := (F64.fin false (2 ^ 52) 12, F64.fin false 0 0, F64.fin false 0 0)

/-- A row whose momentum is the `double` nearest to `1.5000000000001e17`, namely
`150000000000009984`, along the first axis. -/
def largeOddRow : F64 × F64 × F64 :=
  (F64.fin false 4687500000000312 5, F64.fin false 0 0, F64.fin false 0 0)

/-! # Lemmas -/

/-! ## Facts about `std::map` accesses -/

namespace StdMap

theorem mem_keys_subscript (k : Int) (f : Int → Int) (m : StdMap) (j : Int) :
    j ∈ keys (subscript k f m) ↔ j = k ∨ j ∈ keys m := by
  induction m with
  | nil => simp [subscript, keys]
  | cons p rest ih =>
    obtain ⟨k', v⟩ := p
    unfold subscript
    by_cases h1 : k < k'
    · simp [h1, keys]
    · by_cases h2 : k = k'
      · subst h2
        simp [keys]
      · have ih' : j ∈ List.map Prod.fst (subscript k f rest) ↔ j = k ∨ j ∈ List.map Prod.fst rest := ih
        simp only [h1, h2, if_false, keys, List.map_cons, List.mem_cons, ih']
        tauto

theorem ordered_subscript (k : Int) (f : Int → Int) (m : StdMap) (h : Ordered m) :
    Ordered (subscript k f m) := by
  induction m with
  | nil => simp [subscript, Ordered, keys]
  | cons p rest ih =>
    obtain ⟨k', v⟩ := p
    have hp : (∀ j ∈ keys rest, k' < j) ∧ Ordered rest := by
      simpa [Ordered, keys] using h
    unfold subscript
    by_cases h1 : k < k'
    · simp only [h1, if_true]
      have : ∀ j ∈ keys ((k', v) :: rest), k < j := by
        intro j hj
        simp only [keys, List.map_cons, List.mem_cons] at hj
        rcases hj with rfl | hj
        · exact h1
        · exact lt_trans h1 (hp.1 j hj)
      exact List.pairwise_cons.mpr ⟨this, h⟩
    · by_cases h2 : k = k'
      · subst h2
        simpa [Ordered, keys] using h
      · simp only [h1, h2, if_false]
        have hlt : k' < k := lt_of_le_of_ne (not_lt.mp h1) (Ne.symm h2)
        refine List.pairwise_cons.mpr ⟨?_, ih hp.2⟩
        intro j hj
        rcases (mem_keys_subscript k f rest j).mp hj with rfl | hj
        · exact hlt
        · exact hp.1 j hj

theorem find_eq_none_of_not_mem (k : Int) (m : StdMap) (h : k ∉ keys m) : find k m = none := by
  induction m with
  | nil => rfl
  | cons p rest ih =>
    obtain ⟨k', v⟩ := p
    simp only [keys, List.map_cons, List.mem_cons, not_or] at h
    simp only [find, h.1, if_false]
    exact ih h.2

theorem find_isSome_iff (k : Int) (m : StdMap) : (find k m).isSome ↔ k ∈ keys m := by
  induction m with
  | nil => simp [find, keys]
  | cons p rest ih =>
    obtain ⟨k', v⟩ := p
    by_cases h : k = k'
    · simp [find, keys, h]
    · have ih' : (find k rest).isSome = true ↔ k ∈ List.map Prod.fst rest := ih
      simp [find, keys, h, ih']

theorem find_subscript_self (k : Int) (f : Int → Int) (m : StdMap) (h : Ordered m) :
    find k (subscript k f m) = some (f ((find k m).getD 0)) := by
  induction m with
  | nil => simp [subscript, find]
  | cons p rest ih =>
    obtain ⟨k', v⟩ := p
    have hp : (∀ j ∈ keys rest, k' < j) ∧ Ordered rest := by
      simpa [Ordered, keys] using h
    unfold subscript
    by_cases h1 : k < k'
    · have hne : k ≠ k' := ne_of_lt h1
      have hnot : k ∉ keys rest := fun hk => absurd (lt_trans h1 (hp.1 k hk)) (lt_irrefl _)
      simp [h1, find, hne, find_eq_none_of_not_mem k rest hnot]
    · by_cases h2 : k = k'
      · subst h2
        simp [find]
      · simp [h1, h2, find, ih hp.2]

theorem find_subscript_of_ne (k : Int) (f : Int → Int) (m : StdMap) (j : Int) (hj : j ≠ k) :
    find j (subscript k f m) = find j m := by
  induction m with
  | nil => simp [subscript, find, hj]
  | cons p rest ih =>
    obtain ⟨k', v⟩ := p
    unfold subscript
    by_cases h1 : k < k'
    · simp [h1, find, hj]
    · by_cases h2 : k = k'
      · subst h2
        simp [find, hj]
      · simp [h1, h2, find, ih]

theorem total_subscript (k : Int) (f : Int → Int) (m : StdMap) (h : Ordered m) :
    total (subscript k f m) = total m + (f ((find k m).getD 0) - (find k m).getD 0) := by
  induction m with
  | nil => simp [subscript, find, total]
  | cons p rest ih =>
    obtain ⟨k', v⟩ := p
    have hp : (∀ j ∈ keys rest, k' < j) ∧ Ordered rest := by
      simpa [Ordered, keys] using h
    unfold subscript
    by_cases h1 : k < k'
    · have hne : k ≠ k' := ne_of_lt h1
      have hnot : k ∉ keys rest := fun hk => absurd (lt_trans h1 (hp.1 k hk)) (lt_irrefl _)
      simp [h1, find, hne, find_eq_none_of_not_mem k rest hnot, total]
      ring
    · by_cases h2 : k = k'
      · subst h2
        simp [find, total]
        ring
      · have := ih hp.2
        simp only [total] at this
        simp [h1, h2, find, total, this]
        ring

theorem size_subscript (k : Int) (f : Int → Int) (m : StdMap) (h : Ordered m) :
    size (subscript k f m) = size m + (if k ∈ keys m then 0 else 1) := by
  induction m with
  | nil => simp [subscript, size, keys]
  | cons p rest ih =>
    obtain ⟨k', v⟩ := p
    have hp : (∀ j ∈ keys rest, k' < j) ∧ Ordered rest := by
      simpa [Ordered, keys] using h
    unfold subscript
    by_cases h1 : k < k'
    · have hne : k ≠ k' := ne_of_lt h1
      have hnot : k ∉ keys rest := fun hk => absurd (lt_trans h1 (hp.1 k hk)) (lt_irrefl _)
      have hnot' : k ∉ List.map Prod.fst rest := hnot
      simp [h1, size, keys, hne, hnot']
    · by_cases h2 : k = k'
      · subst h2
        simp [size, keys]
      · have ih' : (subscript k f rest).length
            = rest.length + (if k ∈ List.map Prod.fst rest then 0 else 1) := ih hp.2
        have hmem : (k ∈ k' :: List.map Prod.fst rest) ↔ k ∈ List.map Prod.fst rest := by
          simp [h2]
        simp only [h1, h2, if_false, size, keys, List.length_cons, List.map_cons, ih', hmem]
        omega

end StdMap

theorem wrap64_of_range (v : Int) (h0 : -(2 : Int) ^ 63 ≤ v) (h1 : v < (2 : Int) ^ 63) :
    wrap64 v = v := by
  unfold wrap64
  rw [Int.emod_eq_of_lt (by omega) (by omega)]
  omega

namespace StdMap

/-- Two maps with ascending keys and the same lookups are the same map. -/
theorem ext_of_find (m1 m2 : StdMap) (h1 : Ordered m1) (h2 : Ordered m2)
    (h : ∀ k, find k m1 = find k m2) : m1 = m2 := by
  induction m1 generalizing m2 with
  | nil =>
    cases m2 with
    | nil => rfl
    | cons p rest =>
      obtain ⟨k, v⟩ := p
      have := h k
      simp [find] at this
  | cons p1 r1 ih =>
    obtain ⟨k1, v1⟩ := p1
    have hp1 : (∀ j ∈ keys r1, k1 < j) ∧ Ordered r1 := by
      simpa [Ordered, keys] using h1
    cases m2 with
    | nil =>
      have := h k1
      simp [find] at this
    | cons p2 r2 =>
      obtain ⟨k2, v2⟩ := p2
      have hp2 : (∀ j ∈ keys r2, k2 < j) ∧ Ordered r2 := by
        simpa [Ordered, keys] using h2
      have hk : k1 = k2 := by
        rcases lt_trichotomy k1 k2 with hlt | heq | hgt
        · exfalso
          have hne : k1 ≠ k2 := ne_of_lt hlt
          have hnot : k1 ∉ keys r2 :=
            fun hk => absurd (lt_trans hlt (hp2.1 k1 hk)) (lt_irrefl _)
          have := h k1
          simp [find, hne, find_eq_none_of_not_mem k1 r2 hnot] at this
        · exact heq
        · exfalso
          have hne : k2 ≠ k1 := ne_of_lt hgt
          have hnot : k2 ∉ keys r1 :=
            fun hk => absurd (lt_trans hgt (hp1.1 k2 hk)) (lt_irrefl _)
          have := h k2
          simp [find, hne, find_eq_none_of_not_mem k2 r1 hnot] at this
      subst hk
      have hv : v1 = v2 := by
        have := h k1
        simpa [find] using this
      subst hv
      have hrest : r1 = r2 := by
        apply ih r2 hp1.2 hp2.2
        intro k
        by_cases hkk : k = k1
        · subst hkk
          have n1 : k ∉ keys r1 := fun hk => absurd (hp1.1 k hk) (lt_irrefl _)
          have n2 : k ∉ keys r2 := fun hk => absurd (hp2.1 k hk) (lt_irrefl _)
          rw [find_eq_none_of_not_mem k r1 n1, find_eq_none_of_not_mem k r2 n2]
        · have := h k
          simpa [find, hkk] using this
      rw [hrest]

end StdMap

theorem hist_snoc (ks : List Int) (b : Int) : hist (ks ++ [b]) = (hist ks).increment b := by
  simp [hist, List.foldl_append]

theorem hist_ordered (ks : List Int) : StdMap.Ordered (hist ks) := by
  induction ks using List.reverseRecOn with
  | nil => simp [hist, StdMap.Ordered, StdMap.keys]
  | append_singleton ks b ih =>
    rw [hist_snoc]
    exact StdMap.ordered_subscript _ _ _ ih

theorem mem_keys_hist (ks : List Int) (k : Int) : k ∈ StdMap.keys (hist ks) ↔ k ∈ ks := by
  induction ks using List.reverseRecOn with
  | nil => simp [hist, StdMap.keys]
  | append_singleton ks b ih =>
    rw [hist_snoc, StdMap.increment, StdMap.mem_keys_subscript, ih]
    simp [or_comm]

theorem hist_find (ks : List Int) (hlen : ks.length < 2 ^ 63) (k : Int) :
    StdMap.find k (hist ks) = if ks.count k = 0 then none else some (ks.count k : Int) := by
  induction ks using List.reverseRecOn with
  | nil => simp [hist, StdMap.find]
  | append_singleton ks b ih =>
    have hlen' : ks.length + 1 < 2 ^ 63 := by simpa using hlen
    have ih' := ih (by omega)
    rw [hist_snoc, StdMap.increment]
    by_cases hk : k = b
    · subst hk
      rw [StdMap.find_subscript_self _ _ _ (hist_ordered ks), ih']
      have hc : ks.count k ≤ ks.length := List.count_le_length _ _
      have hcnt : (ks ++ [k]).count k = ks.count k + 1 := by simp
      rw [hcnt]
      have hw : ∀ c : Nat, c ≤ ks.length → wrap64 ((c : Int) + 1) = ((c + 1 : Nat) : Int) := by
        intro c hcl
        rw [wrap64_of_range] <;> push_cast <;> omega
      by_cases h0 : ks.count k = 0
      · simp [h0, wrap64]
      · simp only [h0, if_false, Option.getD_some, Nat.succ_ne_zero, hw _ hc]
    · rw [StdMap.find_subscript_of_ne _ _ _ _ hk, ih']
      have hcnt : (ks ++ [b]).count k = ks.count k := by
        simp [List.count_append, List.count_singleton, hk]
      rw [hcnt]

theorem hist_total (ks : List Int) (hlen : ks.length < 2 ^ 63) :
    StdMap.total (hist ks) = ks.length := by
  induction ks using List.reverseRecOn with
  | nil => simp [hist, StdMap.total]
  | append_singleton ks b ih =>
    have hlen' : ks.length + 1 < 2 ^ 63 := by simpa using hlen
    have ih' := ih (by omega)
    rw [hist_snoc, StdMap.increment, StdMap.total_subscript _ _ _ (hist_ordered ks), ih',
      hist_find ks (by omega) b]
    have hc : ks.count b ≤ ks.length := List.count_le_length _ _
    by_cases h0 : ks.count b = 0
    · simp [h0, wrap64]
    · simp only [h0, if_false, Option.getD_some]
      rw [wrap64_of_range _ (by omega) (by omega)]
      simp

theorem hist_size (ks : List Int) : StdMap.size (hist ks) = ks.toFinset.card := by
  induction ks using List.reverseRecOn with
  | nil => simp [hist, StdMap.size]
  | append_singleton ks b ih =>
    rw [hist_snoc, StdMap.increment, StdMap.size_subscript _ _ _ (hist_ordered ks), ih]
    have : (ks ++ [b]).toFinset = insert b ks.toFinset := by
      ext x; simp [or_comm]
    rw [this]
    by_cases hb : b ∈ ks
    · simp [hb, mem_keys_hist]
    · have hb' : b ∉ ks.toFinset := by simpa using hb
      simp [hb, mem_keys_hist, Finset.card_insert_of_not_mem hb']

theorem hist_perm (ks1 ks2 : List Int) (hp : ks1.Perm ks2) (hlen : ks1.length < 2 ^ 63) :
    hist ks1 = hist ks2 := by
  apply StdMap.ext_of_find _ _ (hist_ordered ks1) (hist_ordered ks2)
  intro k
  rw [hist_find ks1 hlen k, hist_find ks2 (by rw [← hp.length_eq]; exact hlen) k, hp.count_eq k]

/-! ## The scan loop builds `hist` -/

theorem scanFrom_ok (tree : TTree) (key : Nat → Int) (l : List Nat) (m : StdMap)
    (hkey : ∀ i ∈ l, tree.rowBucket i = .ok (key i)) :
    scanFrom tree m l = .ok ((l.map key).foldl StdMap.increment m) := by
  induction l generalizing m with
  | nil => rfl
  | cons i rest ih =>
    have hi : tree.rowBucket i = .ok (key i) := hkey i (List.mem_cons_self _ _)
    have hrest : ∀ j ∈ rest, tree.rowBucket j = .ok (key j) :=
      fun j hj => hkey j (List.mem_cons_of_mem _ hj)
    simp only [scanFrom, scanStep, hi, List.map_cons, List.foldl_cons]
    exact ih _ hrest

theorem scanLoop_ok_of_key (tree : TTree) (key : Nat → Int)
    (hkey : ∀ i, i < tree.nEntries → tree.rowBucket i = .ok (key i)) :
    scanLoop tree = .ok (hist ((List.range tree.nEntries).map key)) := by
  unfold scanLoop hist
  exact scanFrom_ok tree key _ [] (fun i hi => hkey i (List.mem_range.mp hi))

theorem rowKeys_of_key (tree : TTree) (key : Nat → Int)
    (hkey : ∀ i, i < tree.nEntries → tree.rowBucket i = .ok (key i)) :
    tree.rowKeys = (List.range tree.nEntries).map key := by
  unfold TTree.rowKeys
  rw [← List.filterMap_eq_map]
  apply List.filterMap_congr
  intro i hi
  rw [hkey i (List.mem_range.mp hi)]
  rfl

theorem exists_key (tree : TTree) (h : tree.KeysDefined) :
    ∃ key : Nat → Int, ∀ i, i < tree.nEntries → tree.rowBucket i = .ok (key i) := by
  refine ⟨fun i => ((tree.rowBucket i).toOption).getD 0, ?_⟩
  intro i hi
  obtain ⟨b, hb⟩ := h i hi
  simp only [hb]
  rfl

theorem scanLoop_ok (tree : TTree) (h : tree.KeysDefined) :
    scanLoop tree = .ok (hist tree.rowKeys) := by
  obtain ⟨key, hkey⟩ := exists_key tree h
  rw [rowKeys_of_key tree key hkey]
  exact scanLoop_ok_of_key tree key hkey

theorem length_rowKeys (tree : TTree) (h : tree.KeysDefined) :
    tree.rowKeys.length = tree.nEntries := by
  obtain ⟨key, hkey⟩ := exists_key tree h
  rw [rowKeys_of_key tree key hkey]
  simp

theorem scanFrom_error (tree : TTree) (f : Fault) (i : Nat) (rest : List Nat) (m : StdMap)
    (h : tree.rowBucket i = .error f) : scanFrom tree m (i :: rest) = .error f := by
  simp [scanFrom, scanStep, h]

theorem getD_of_lt (rows : List (F64 × F64 × F64)) (d : F64 × F64 × F64) (i : Nat)
    (hi : i < rows.length) : rows.getD i d = rows.get ⟨i, hi⟩ := by
  simp [List.getD_eq_getElem?_getD, List.getElem?_eq_getElem hi]

theorem branch_ofRows (rows : List (F64 × F64 × F64)) :
    (TTree.ofRows rows).branch "H1_PX"
        = some (fun i => (rows.getD i (F64.nan, F64.nan, F64.nan)).1)
    ∧ (TTree.ofRows rows).branch "H1_PY"
        = some (fun i => (rows.getD i (F64.nan, F64.nan, F64.nan)).2.1)
    ∧ (TTree.ofRows rows).branch "H1_PZ"
        = some (fun i => (rows.getD i (F64.nan, F64.nan, F64.nan)).2.2) :=
  ⟨rfl, rfl, rfl⟩

theorem rowBucket_ofRows (rows : List (F64 × F64 × F64)) (i : Nat) (hi : i < rows.length)
    (b : Int) (hb : rowKey (rows.get ⟨i, hi⟩) = some b) :
    (TTree.ofRows rows).rowBucket i = .ok b := by
  simp only [rowKey] at hb
  obtain ⟨hx, hy, hz⟩ := branch_ofRows rows
  simp only [TTree.rowBucket, hx, hy, hz, rowBucketOf, getD_of_lt rows _ i hi, hb]

theorem map_range_getD (rows : List (F64 × F64 × F64)) (d : F64 × F64 × F64)
    (g : F64 × F64 × F64 → Int) :
    (List.range rows.length).map (fun i => g (rows.getD i d)) = rows.map g := by
  apply List.ext_getElem
  · simp
  · intro i h1 h2
    have hi : i < rows.length := by simpa using h2
    simp [List.getD_eq_getElem?_getD, List.getElem?_eq_getElem hi]

theorem scanLoop_ofRows (rows : List (F64 × F64 × F64))
    (hdef : ∀ r ∈ rows, (rowKey r).isSome) :
    scanLoop (TTree.ofRows rows) = .ok (hist (rows.map (fun r => (rowKey r).getD 0))) := by
  have h := scanLoop_ok_of_key (TTree.ofRows rows)
    (fun i => (rowKey (rows.getD i (F64.nan, F64.nan, F64.nan))).getD 0) (by
      intro i hi
      have hi' : i < rows.length := hi
      apply rowBucket_ofRows rows i hi'
      have := hdef (rows.get ⟨i, hi'⟩) (List.get_mem _ _ _)
      obtain ⟨b, hb⟩ := Option.isSome_iff_exists.mp this
      simp only [getD_of_lt rows _ i hi', hb, Option.getD_some])
  rw [h]
  have hk : (List.range (TTree.ofRows rows).nEntries).map
      (fun i => (rowKey (rows.getD i (F64.nan, F64.nan, F64.nan))).getD 0)
      = rows.map (fun r => (rowKey r).getD 0) :=
    map_range_getD rows _ (fun r => (rowKey r).getD 0)
  rw [hk]

/-! ## Facts about the `double` operations -/

namespace F64

theorem bitLenAux_spec (fuel m : Nat) (h : m ≤ fuel) :
    m < 2 ^ bitLenAux fuel m ∧ (m ≠ 0 → 2 ^ bitLenAux fuel m ≤ 2 * m)
      ∧ (m = 0 → bitLenAux fuel m = 0) := by
  induction fuel generalizing m with
  | zero =>
    have : m = 0 := by omega
    subst this
    simp [bitLenAux]
  | succ fuel ih =>
    unfold bitLenAux
    by_cases hm : m = 0
    · simp [hm]
    · rw [if_neg hm]
      obtain ⟨h1, h2, h3⟩ := ih (m / 2) (by omega)
      refine ⟨?_, ?_, fun h => absurd h hm⟩
      · rw [pow_succ]
        omega
      · intro _
        rw [pow_succ]
        by_cases hm2 : m / 2 = 0
        · rw [h3 hm2]
          omega
        · have := h2 hm2
          omega

theorem lt_pow_bitLen (m : Nat) : m < 2 ^ bitLen m := (bitLenAux_spec m m le_rfl).1

theorem pow_bitLen_le (m : Nat) (hm : m ≠ 0) : 2 ^ bitLen m ≤ 2 * m :=
  (bitLenAux_spec m m le_rfl).2.1 hm

theorem bitLen_zero : bitLen 0 = 0 := rfl

theorem bitLen_le_of_lt_pow (m n : Nat) (h : m < 2 ^ n) : bitLen m ≤ n := by
  by_cases hm : m = 0
  · subst hm
    simp [bitLen_zero]
  · by_contra hlt
    have h1 : 2 ^ (n + 1) ≤ 2 ^ bitLen m := Nat.pow_le_pow_right (by norm_num) (by omega)
    have h2 := pow_bitLen_le m hm
    rw [pow_succ] at h1
    omega

theorem nonNeg_roundNE_false (m : Nat) (e : Int) : NonNeg (roundNE false m e) := by
  unfold roundNE mkFinite
  simp only
  split_ifs <;> simp [NonNeg]

theorem nonNeg_sqrt (x : F64) : NonNeg (sqrt x) := by
  cases x with
  | nan => simp [sqrt, NonNeg]
  | inf s => cases s <;> simp [sqrt, NonNeg]
  | fin s m e =>
    unfold sqrt
    simp only
    split_ifs with h1 h2 h3
    · simp [NonNeg]
    · simp [NonNeg]
    · exact nonNeg_roundNE_false _ _
    · exact nonNeg_roundNE_false _ _

theorem ofInt_10000 : ofInt 10000 = fin false 10000 0 := by decide

theorem div_fin_fin (s t : Bool) (m n : Nat) (e f : Int) :
    div (fin s m e) (fin t n f)
      = if n = 0 then (if m = 0 then nan else inf (s != t))
        else if m = 0 then fin (s != t) 0 0
        else if (m * 2 ^ (bitLen n + 64)) % n = 0
          then roundNE (s != t) ((m * 2 ^ (bitLen n + 64)) / n) (e - f - (bitLen n + 64 : Nat))
          else roundNE (s != t) (2 * ((m * 2 ^ (bitLen n + 64)) / n) + 1)
            (e - f - (bitLen n + 64 : Nat) - 1) := rfl

theorem round_fin (s : Bool) (m : Nat) (e : Int) :
    round (fin s m e)
      = if 0 ≤ e then fin s m e
        else fin s ((2 * m + 2 ^ (-e).toNat) / (2 * 2 ^ (-e).toNat)) 0 := rfl

theorem toLong_fin (s : Bool) (m : Nat) (e : Int) :
    toLong (fin s m e)
      = if -(2 : Int) ^ 63 ≤ (if s then -(truncNat m e : Int) else (truncNat m e : Int))
          ∧ (if s then -(truncNat m e : Int) else (truncNat m e : Int)) < (2 : Int) ^ 63
        then some (if s then -(truncNat m e : Int) else (truncNat m e : Int))
        else none := rfl

theorem truncNat_zero (e : Int) : truncNat 0 e = 0 := by
  unfold truncNat
  split_ifs <;> simp

theorem nonNeg_div_10000 (x : F64) (h : NonNeg x) : NonNeg (div x (ofInt 10000)) := by
  rw [ofInt_10000]
  cases x with
  | nan => simp [div, NonNeg]
  | inf s => simpa [div, NonNeg] using h
  | fin s m e =>
    rw [div_fin_fin, if_neg (by norm_num)]
    by_cases hm : m = 0
    · simp [hm, NonNeg]
    · have hs : s = false := by
        rcases h with h | h
        · exact h
        · exact absurd h hm
      subst hs
      rw [if_neg hm]
      split_ifs
      · exact nonNeg_roundNE_false _ _
      · exact nonNeg_roundNE_false _ _

theorem nonNeg_round (x : F64) (h : NonNeg x) : NonNeg (round x) := by
  cases x with
  | nan => simp [round, NonNeg]
  | inf s => simpa [round, NonNeg] using h
  | fin s m e =>
    rw [round_fin]
    split_ifs with he
    · exact h
    · rcases h with h | h
      · exact Or.inl h
      · right
        subst h
        have hpos : 0 < 2 ^ (-e).toNat := Nat.pow_pos (by norm_num)
        simp only [Nat.mul_zero, Nat.zero_add]
        exact Nat.div_eq_of_lt (by omega)

theorem toLong_nonneg (x : F64) (h : NonNeg x) (r : Int) (hr : toLong x = some r) : 0 ≤ r := by
  cases x with
  | nan => simp [toLong] at hr
  | inf s => simp [toLong] at hr
  | fin s m e =>
    rw [toLong_fin] at hr
    cases s with
    | false =>
      simp only [Bool.false_eq_true, if_false] at hr
      split_ifs at hr
      simp only [Option.some.injEq] at hr
      subst hr
      exact Int.natCast_nonneg _
    | true =>
      have hm : m = 0 := by
        rcases h with h | h
        · simp at h
        · exact h
      subst hm
      simp only [truncNat_zero, if_true] at hr
      split_ifs at hr
      simp only [Option.some.injEq] at hr
      subst hr
      simp

end F64

theorem quotient_nonneg (x y z : F64) (q : Int) (h : quotient (magnitude x y z) = some q) :
    0 ≤ q := by
  unfold quotient magnitude at h
  exact F64.toLong_nonneg _
    (F64.nonNeg_round _ (F64.nonNeg_div_10000 _ (F64.nonNeg_sqrt _))) q h

theorem bucket_of_quotient (x y z : F64) (q : Int) (h : quotient (magnitude x y z) = some q)
    (hq : q ≤ maxQuotient) : bucket x y z = some (q * 10000) := by
  have h0 := quotient_nonneg x y z q h
  unfold maxQuotient at hq
  unfold bucket bucketOf
  rw [h]
  simp only [Option.map_some']
  rw [wrap64_of_range _ (by omega) (by omega)]

namespace F64

theorem toRat_fin (s : Bool) (m : Nat) (e : Int) :
    toRat (fin s m e) = some ((if s then -1 else 1) * (m : ℚ) * (2 : ℚ) ^ e) := rfl

theorem two_zpow_pos (e : Int) : (0 : ℚ) < (2 : ℚ) ^ e := zpow_pos (by norm_num) e

theorem eq_mul_pow_of_zpow_eq (m a : Nat) (e f : Int)
    (h : (m : ℚ) * (2 : ℚ) ^ e = (a : ℚ) * (2 : ℚ) ^ f) (hef : e ≤ f) :
    m = a * 2 ^ (f - e).toNat := by
  obtain ⟨j, hj⟩ : ∃ j : Nat, f = e + (j : Int) := ⟨(f - e).toNat, by omega⟩
  subst hj
  have hj' : (e + (j : Int) - e).toNat = j := by simp
  rw [hj']
  rw [zpow_add₀ (by norm_num : (2 : ℚ) ≠ 0), zpow_natCast] at h
  have hpos := two_zpow_pos e
  have h' : (m : ℚ) * (2 : ℚ) ^ e = ((a : ℚ) * (2 : ℚ) ^ j) * (2 : ℚ) ^ e := by
    rw [h]; ring
  have h3 := mul_right_cancel₀ (ne_of_gt hpos) h'
  exact_mod_cast h3

theorem no_overflow (m : Nat) (e : Int) (hm : m ≠ 0)
    (h : (m : ℚ) * (2 : ℚ) ^ e < (2 : ℚ) ^ (1024 : Int)) : e + (bitLen m : Int) ≤ 1024 := by
  have h1 : ((2 ^ bitLen m : Nat) : ℚ) ≤ ((2 * m : Nat) : ℚ) := by
    exact_mod_cast pow_bitLen_le m hm
  push_cast at h1
  have hpos := two_zpow_pos e
  have h2 : (2 : ℚ) ^ ((bitLen m : Int) + e) < (2 : ℚ) ^ (1025 : Int) := by
    rw [zpow_add₀ (by norm_num : (2 : ℚ) ≠ 0), zpow_natCast]
    calc (2 : ℚ) ^ bitLen m * (2 : ℚ) ^ e ≤ (2 * (m : ℚ)) * (2 : ℚ) ^ e :=
          mul_le_mul_of_nonneg_right h1 (le_of_lt hpos)
      _ = 2 * ((m : ℚ) * (2 : ℚ) ^ e) := by ring
      _ < 2 * (2 : ℚ) ^ (1024 : Int) := by linarith
      _ = (2 : ℚ) ^ (1025 : Int) := by norm_num
  have h3 := (zpow_lt_zpow_iff_right₀ (by norm_num : (1 : ℚ) < 2)).mp h2
  omega

theorem toRat_mkFinite (neg : Bool) (m : Nat) (e : Int) (hm : m ≠ 0)
    (h : (m : ℚ) * (2 : ℚ) ^ e < (2 : ℚ) ^ (1024 : Int)) :
    toRat (mkFinite neg m e) = some ((if neg then -1 else 1) * (m : ℚ) * (2 : ℚ) ^ e) := by
  unfold mkFinite
  rw [if_neg (by have := no_overflow m e hm h; omega)]
  rfl

theorem roundNE_zero (neg : Bool) (e : Int) : roundNE neg 0 e = fin neg 0 0 := rfl

theorem roundNE_of_le (neg : Bool) (m : Nat) (e : Int) (hm : m ≠ 0)
    (hE : max (e + (bitLen m : Int) - 53) (-1074) ≤ e) : roundNE neg m e = mkFinite neg m e := by
  unfold roundNE
  simp only [hm, if_false, hE, if_true]

theorem roundNE_of_dvd (neg : Bool) (m : Nat) (e : Int) (hm : m ≠ 0)
    (hE : ¬ max (e + (bitLen m : Int) - 53) (-1074) ≤ e)
    (hdvd : m % 2 ^ (max (e + (bitLen m : Int) - 53) (-1074) - e).toNat = 0)
    (hq : m / 2 ^ (max (e + (bitLen m : Int) - 53) (-1074) - e).toNat ≠ 2 ^ 53) :
    roundNE neg m e
      = mkFinite neg (m / 2 ^ (max (e + (bitLen m : Int) - 53) (-1074) - e).toNat)
          (max (e + (bitLen m : Int) - 53) (-1074)) := by
  unfold roundNE
  have hhalf : ¬ (2 ^ ((max (e + (bitLen m : Int) - 53) (-1074) - e).toNat - 1) < 0
      ∨ (0 = 2 ^ ((max (e + (bitLen m : Int) - 53) (-1074) - e).toNat - 1)
          ∧ m / 2 ^ (max (e + (bitLen m : Int) - 53) (-1074) - e).toNat % 2 = 1)) := by
    have : 0 < 2 ^ ((max (e + (bitLen m : Int) - 53) (-1074) - e).toNat - 1) :=
      Nat.pow_pos (by norm_num)
    omega
  simp only [hm, if_false, hE, hdvd, hhalf, hq]

theorem toRat_roundNE_exact (neg : Bool) (m a : Nat) (e f : Int)
    (h : (m : ℚ) * (2 : ℚ) ^ e = (a : ℚ) * (2 : ℚ) ^ f) (ha : a < 2 ^ 53) (hf : -1074 ≤ f)
    (hlt : (a : ℚ) * (2 : ℚ) ^ f < (2 : ℚ) ^ (1024 : Int)) :
    toRat (roundNE neg m e) = some ((if neg then -1 else 1) * (a : ℚ) * (2 : ℚ) ^ f) := by
  by_cases hm : m = 0
  · subst hm
    have h0 : (a : ℚ) * (2 : ℚ) ^ f = 0 := by rw [← h]; simp
    rw [roundNE_zero, toRat_fin, mul_assoc, mul_assoc, h0]
    simp
  · have hmlt : (m : ℚ) * (2 : ℚ) ^ e < (2 : ℚ) ^ (1024 : Int) := by rw [h]; exact hlt
    by_cases hE : max (e + (bitLen m : Int) - 53) (-1074) ≤ e
    · rw [roundNE_of_le neg m e hm hE, toRat_mkFinite neg m e hm hmlt, mul_assoc, h, mul_assoc]
    · -- the rounding position is not above the last place of the value
      have hEf : max (e + (bitLen m : Int) - 53) (-1074) ≤ f := by
        by_contra hcon
        have hEq : max (e + (bitLen m : Int) - 53) (-1074) = e + (bitLen m : Int) - 53 := by
          omega
        have h1 : ((2 ^ bitLen m : Nat) : ℚ) ≤ ((2 * m : Nat) : ℚ) := by
          exact_mod_cast pow_bitLen_le m hm
        push_cast at h1
        have ha' : (a : ℚ) < (2 : ℚ) ^ (53 : Nat) := by exact_mod_cast ha
        have hpe := two_zpow_pos e
        have hpf := two_zpow_pos f
        have h2 : (2 : ℚ) ^ ((bitLen m : Int) + e) < (2 : ℚ) ^ ((54 : Int) + f) := by
          rw [zpow_add₀ (by norm_num : (2 : ℚ) ≠ 0), zpow_natCast,
            zpow_add₀ (by norm_num : (2 : ℚ) ≠ 0)]
          calc (2 : ℚ) ^ bitLen m * (2 : ℚ) ^ e ≤ (2 * (m : ℚ)) * (2 : ℚ) ^ e :=
                mul_le_mul_of_nonneg_right h1 (le_of_lt hpe)
            _ = 2 * ((a : ℚ) * (2 : ℚ) ^ f) := by rw [← h]; ring
            _ < 2 * ((2 : ℚ) ^ (53 : Nat) * (2 : ℚ) ^ f) := by
                have := mul_lt_mul_of_pos_right ha' hpf
                linarith
            _ = (2 : ℚ) ^ (54 : Int) * (2 : ℚ) ^ f := by norm_num; ring
        have h3 := (zpow_lt_zpow_iff_right₀ (by norm_num : (1 : ℚ) < 2)).mp h2
        omega
      have hef : e ≤ f := by omega
      have hmeq := eq_mul_pow_of_zpow_eq m a e f h hef
      obtain ⟨sh, hsh⟩ : ∃ sh : Nat,
          (max (e + (bitLen m : Int) - 53) (-1074) - e).toNat = sh := ⟨_, rfl⟩
      obtain ⟨j, hj⟩ : ∃ j : Nat, (f - max (e + (bitLen m : Int) - 53) (-1074)).toNat = j :=
        ⟨_, rfl⟩
      have hsum : (f - e).toNat = j + sh := by omega
      have hmeq' : m = a * 2 ^ j * 2 ^ sh := by rw [hmeq, hsum, pow_add, mul_assoc]
      have hpow : 0 < 2 ^ sh := Nat.pow_pos (by norm_num)
      have hq : m / 2 ^ sh = a * 2 ^ j := by rw [hmeq']; exact Nat.mul_div_cancel _ hpow
      have hdvd : m % 2 ^ sh = 0 := by rw [hmeq']; exact Nat.mul_mod_left _ _
      have hqlt : m / 2 ^ sh < 2 ^ 53 := by
        rw [Nat.div_lt_iff_lt_mul hpow]
        have hL : bitLen m ≤ 53 + sh := by omega
        calc m < 2 ^ bitLen m := lt_pow_bitLen m
          _ ≤ 2 ^ (53 + sh) := Nat.pow_le_pow_right (by norm_num) hL
          _ = 2 ^ 53 * 2 ^ sh := by rw [pow_add]
      have hq0 : m / 2 ^ sh ≠ 0 := by
        rw [hq]
        intro h0
        rw [hmeq', h0] at hm
        simp at hm
      have hval : ((m / 2 ^ sh : Nat) : ℚ) * (2 : ℚ) ^ (max (e + (bitLen m : Int) - 53) (-1074))
          = (a : ℚ) * (2 : ℚ) ^ f := by
        have hfE : f = max (e + (bitLen m : Int) - 53) (-1074) + (j : Int) := by omega
        rw [hq]
        conv_rhs => rw [hfE, zpow_add₀ (by norm_num : (2 : ℚ) ≠ 0), zpow_natCast]
        push_cast
        ring
      rw [roundNE_of_dvd neg m e hm hE (by rw [hsh]; exact hdvd)
        (by rw [hsh]; exact ne_of_lt hqlt), hsh,
        toRat_mkFinite neg _ _ hq0 (by rw [hval]; exact hlt), mul_assoc, hval, mul_assoc]

end F64

namespace F64

theorem toRat_div_exact (s t : Bool) (m n a : Nat) (e f g : Int) (hm : m ≠ 0) (hn : n ≠ 0)
    (h : (m : ℚ) * (2 : ℚ) ^ e = (a : ℚ) * (2 : ℚ) ^ g * ((n : ℚ) * (2 : ℚ) ^ f))
    (ha : a < 2 ^ 53) (hg : -1074 ≤ g)
    (hlt : (a : ℚ) * (2 : ℚ) ^ g < (2 : ℚ) ^ (1024 : Int)) :
    toRat (div (fin s m e) (fin t n f))
      = some ((if (s != t) then -1 else 1) * (a : ℚ) * (2 : ℚ) ^ g) := by
  rw [div_fin_fin, if_neg hn, if_neg hm]
  obtain ⟨k, hk⟩ : ∃ k : Nat, bitLen n + 64 = k := ⟨_, rfl⟩
  rw [hk]
  have h2 : (2 : ℚ) ≠ 0 := by norm_num
  -- the scaled dividend, as a multiple of the divisor
  have hM : ((m * 2 ^ k : Nat) : ℚ) * (2 : ℚ) ^ (e - f - (k : Int))
      = ((a * n : Nat) : ℚ) * (2 : ℚ) ^ g := by
    push_cast
    have e1 : (2 : ℚ) ^ (e - f - (k : Int)) = (2 : ℚ) ^ e * ((2 : ℚ) ^ f)⁻¹ * ((2 : ℚ) ^ k)⁻¹ := by
      rw [zpow_sub₀ h2, zpow_sub₀ h2, zpow_natCast]
      field_simp
    rw [e1]
    have hpf := two_zpow_pos f
    have hpk : (0 : ℚ) < (2 : ℚ) ^ k := by positivity
    field_simp
    have := h
    nlinarith [h]
  obtain ⟨c, hc⟩ : ∃ c : Int, e - f - (k : Int) = c := ⟨_, rfl⟩
  rw [hc] at hM
  have hcg : c ≤ g := by
    by_contra hcon
    have hswap := eq_mul_pow_of_zpow_eq (a * n) (m * 2 ^ k) g c hM.symm (by omega)
    have hn1 : n < 2 ^ bitLen n := lt_pow_bitLen n
    have hpow : 0 < 2 ^ (c - g).toNat := Nat.pow_pos (by norm_num)
    have hk' : 2 ^ k = 2 ^ bitLen n * 2 ^ 64 := by rw [← hk, pow_add]
    have hmpos : 0 < m := Nat.pos_of_ne_zero hm
    have h3 : 2 ^ k ≤ a * n := by
      calc 2 ^ k ≤ m * 2 ^ k := Nat.le_mul_of_pos_left _ hmpos
        _ ≤ m * 2 ^ k * 2 ^ (c - g).toNat := Nat.le_mul_of_pos_right _ hpow
        _ = a * n := hswap.symm
    have h4 : n * 2 ^ 64 < a * n := by
      calc n * 2 ^ 64 < 2 ^ bitLen n * 2 ^ 64 := Nat.mul_lt_mul_of_pos_right hn1 (by norm_num)
        _ = 2 ^ k := hk'.symm
        _ ≤ a * n := h3
    have h5 : 2 ^ 64 < a := by
      by_contra h6
      have : a * n ≤ 2 ^ 64 * n := Nat.mul_le_mul_right n (not_lt.mp h6)
      omega
    omega
  have hMeq := eq_mul_pow_of_zpow_eq (m * 2 ^ k) (a * n) c g hM hcg
  have hnpos : 0 < n := Nat.pos_of_ne_zero hn
  have hMn : m * 2 ^ k = a * 2 ^ (g - c).toNat * n := by rw [hMeq]; ring
  have hmod : m * 2 ^ k % n = 0 := by rw [hMn]; exact Nat.mul_mod_left _ _
  have hdiv : m * 2 ^ k / n = a * 2 ^ (g - c).toNat := by
    rw [hMn]; exact Nat.mul_div_cancel _ hnpos
  rw [if_pos hmod, hc, hdiv]
  apply toRat_roundNE_exact _ _ a c g _ ha hg hlt
  obtain ⟨j, hj⟩ : ∃ j : Nat, g = c + (j : Int) := ⟨(g - c).toNat, by omega⟩
  subst hj
  have hj' : (c + (j : Int) - c).toNat = j := by simp
  rw [hj', zpow_add₀ h2, zpow_natCast]
  push_cast
  ring

theorem toLong_of_toRat_nat (x : F64) (hx : NonNeg x) (A : Nat) (h : toRat x = some (A : ℚ))
    (hA : A < 2 ^ 63) : toLong x = some (A : Int) := by
  cases x with
  | nan => simp [toRat] at h
  | inf s => simp [toRat] at h
  | fin s m e =>
    rw [toRat_fin] at h
    simp only [Option.some.injEq] at h
    have htr : truncNat m e = A ∧ (s = true → A = 0) := by
      by_cases hm : m = 0
      · subst hm
        have : (A : ℚ) = 0 := by rw [← h]; simp
        have hA0 : A = 0 := by exact_mod_cast this
        exact ⟨by rw [truncNat_zero, hA0], fun _ => hA0⟩
      · have hs : s = false := by
          rcases hx with hx | hx
          · exact hx
          · exact absurd hx hm
        subst hs
        simp only [Bool.false_eq_true, if_false, one_mul] at h
        refine ⟨?_, fun hh => by simp at hh⟩
        unfold truncNat
        by_cases he : 0 ≤ e
        · rw [if_pos he]
          have h' : (A : ℚ) * (2 : ℚ) ^ (0 : Int) = (m : ℚ) * (2 : ℚ) ^ e := by
            rw [h]; simp
          have := eq_mul_pow_of_zpow_eq A m 0 e h' he
          simpa using this.symm
        · rw [if_neg he]
          have h' : (m : ℚ) * (2 : ℚ) ^ e = (A : ℚ) * (2 : ℚ) ^ (0 : Int) := by
            rw [h]; simp
          have := eq_mul_pow_of_zpow_eq m A e 0 h' (by omega)
          have hpow : 0 < 2 ^ (-e).toNat := Nat.pow_pos (by norm_num)
          have he' : (0 - e).toNat = (-e).toNat := by simp
          rw [he'] at this
          rw [this]
          exact Nat.mul_div_cancel _ hpow
    obtain ⟨ht, hs0⟩ := htr
    rw [toLong_fin, ht]
    cases s with
    | false =>
      simp only [Bool.false_eq_true, if_false]
      rw [if_pos (by constructor <;> omega)]
    | true =>
      have := hs0 rfl
      subst this
      simp

theorem round_exponent_nonneg (x : F64) (s : Bool) (m : Nat) (e : Int)
    (h : round x = fin s m e) : 0 ≤ e := by
  cases x with
  | nan => simp [round] at h
  | inf t => simp [round] at h
  | fin t n f =>
    rw [round_fin] at h
    split_ifs at h with hf
    · simp only [fin.injEq] at h
      omega
    · simp only [fin.injEq] at h
      omega

theorem toLong_round_of_toRat (x : F64) (hx : NonNeg x) (p : ℚ) (h : toRat x = some p)
    (hlt : ⌊p + 1 / 2⌋ < (2 : Int) ^ 63) : toLong (round x) = some ⌊p + 1 / 2⌋ := by
  cases x with
  | nan => simp [toRat] at h
  | inf s => simp [toRat] at h
  | fin s m e =>
    rw [toRat_fin] at h
    simp only [Option.some.injEq] at h
    by_cases hm : m = 0
    · subst hm
      have hp : p = 0 := by rw [← h]; simp
      subst hp
      have hfl : ⌊(0 : ℚ) + 1 / 2⌋ = 0 := by
        rw [Int.floor_eq_iff]; norm_num
      rw [hfl, round_fin]
      have hpow : 0 < 2 ^ (-e).toNat := Nat.pow_pos (by norm_num)
      have hz : (2 * 0 + 2 ^ (-e).toNat) / (2 * 2 ^ (-e).toNat) = 0 :=
        Nat.div_eq_of_lt (by omega)
      split_ifs
      · rw [toLong_fin, truncNat_zero]
        cases s <;> simp
      · rw [hz, toLong_fin, truncNat_zero]
        cases s <;> simp
    · have hs : s = false := by
        rcases hx with hx | hx
        · exact hx
        · exact absurd hx hm
      subst hs
      simp only [Bool.false_eq_true, if_false, one_mul] at h
      rw [round_fin]
      by_cases he : 0 ≤ e
      · rw [if_pos he]
        obtain ⟨j, hj⟩ : ∃ j : Nat, e = (j : Int) := ⟨e.toNat, by omega⟩
        subst hj
        rw [zpow_natCast] at h
        have hp : p = ((m * 2 ^ j : Nat) : ℚ) := by rw [← h]; push_cast; ring
        have hfl : ⌊p + 1 / 2⌋ = ((m * 2 ^ j : Nat) : Int) := by
          rw [Int.floor_eq_iff, hp]
          push_cast
          constructor <;> norm_num
        rw [hfl] at hlt ⊢
        apply toLong_of_toRat_nat (fin false m (j : Int)) (Or.inl rfl) _ _
          (by exact_mod_cast hlt)
        rw [toRat_fin, zpow_natCast]
        simp
      · rw [if_neg he]
        obtain ⟨j, hj⟩ : ∃ j : Nat, e = -(j : Int) := ⟨(-e).toNat, by omega⟩
        subst hj
        have hj' : (- -(j : Int)).toNat = j := by simp
        rw [hj']
        have hp : p + 1 / 2 = ((2 * m + 2 ^ j : Nat) : ℚ) / ((2 * 2 ^ j : Nat) : ℚ) := by
          rw [← h, zpow_neg, zpow_natCast]
          push_cast
          field_simp
          ring
        have hfl : ⌊p + 1 / 2⌋ = (((2 * m + 2 ^ j) / (2 * 2 ^ j) : Nat) : Int) := by
          rw [hp, Rat.floor_natCast_div_natCast]
          rfl
        rw [hfl] at hlt ⊢
        apply toLong_of_toRat_nat (fin false ((2 * m + 2 ^ j) / (2 * 2 ^ j)) 0) (Or.inl rfl)
          _ _ (by exact_mod_cast hlt)
        rw [toRat_fin]
        simp

end F64

namespace F64

theorem isBinary64_mkFinite (neg : Bool) (m : Nat) (e : Int) (hm : m < 2 ^ 53)
    (he : -1074 ≤ e) : isBinary64 (mkFinite neg m e) = true := by
  unfold mkFinite
  split_ifs with h
  · rfl
  · simp only [isBinary64, Bool.and_eq_true, decide_eq_true_eq]
    exact ⟨⟨hm, he⟩, by omega⟩

theorem isBinary64_roundNE (neg : Bool) (m : Nat) (e : Int) :
    isBinary64 (roundNE neg m e) = true := by
  by_cases hm : m = 0
  · subst hm
    rw [roundNE_zero]
    simp [isBinary64, bitLen_zero]
  · unfold roundNE
    simp only [hm, if_false]
    split_ifs with hE hq1 hq2 hq3
    · apply isBinary64_mkFinite _ _ _ _ (by omega)
      have hL : bitLen m ≤ 53 := by omega
      calc m < 2 ^ bitLen m := lt_pow_bitLen m
        _ ≤ 2 ^ 53 := Nat.pow_le_pow_right (by norm_num) hL
    · exact isBinary64_mkFinite _ _ _ (by norm_num) (by omega)
    · apply isBinary64_mkFinite _ _ _ _ (by omega)
      have hpow : 0 < 2 ^ (max (e + (bitLen m : Int) - 53) (-1074) - e).toNat :=
        Nat.pow_pos (by norm_num)
      have hqlt : m / 2 ^ (max (e + (bitLen m : Int) - 53) (-1074) - e).toNat < 2 ^ 53 := by
        rw [Nat.div_lt_iff_lt_mul hpow]
        have hL : bitLen m ≤ 53 + (max (e + (bitLen m : Int) - 53) (-1074) - e).toNat := by
          omega
        calc m < 2 ^ bitLen m := lt_pow_bitLen m
          _ ≤ 2 ^ (53 + (max (e + (bitLen m : Int) - 53) (-1074) - e).toNat) :=
            Nat.pow_le_pow_right (by norm_num) hL
          _ = 2 ^ 53 * 2 ^ (max (e + (bitLen m : Int) - 53) (-1074) - e).toNat := by
            rw [pow_add]
      omega
    · exact isBinary64_mkFinite _ _ _ (by norm_num) (by omega)
    · apply isBinary64_mkFinite _ _ _ _ (by omega)
      have hpow : 0 < 2 ^ (max (e + (bitLen m : Int) - 53) (-1074) - e).toNat :=
        Nat.pow_pos (by norm_num)
      rw [Nat.div_lt_iff_lt_mul hpow]
      have hL : bitLen m ≤ 53 + (max (e + (bitLen m : Int) - 53) (-1074) - e).toNat := by
        omega
      calc m < 2 ^ bitLen m := lt_pow_bitLen m
        _ ≤ 2 ^ (53 + (max (e + (bitLen m : Int) - 53) (-1074) - e).toNat) :=
          Nat.pow_le_pow_right (by norm_num) hL
        _ = 2 ^ 53 * 2 ^ (max (e + (bitLen m : Int) - 53) (-1074) - e).toNat := by
          rw [pow_add]

theorem isBinary64_sqrt (x : F64) : isBinary64 (sqrt x) = true := by
  cases x with
  | nan => rfl
  | inf s => cases s <;> rfl
  | fin s m e =>
    unfold sqrt
    simp only
    split_ifs
    · simp [isBinary64, bitLen_zero]
    · rfl
    · exact isBinary64_roundNE _ _ _
    · exact isBinary64_roundNE _ _ _

end F64

namespace F64

theorem isqrtAux_spec (n k r : Nat) (h1 : r * r ≤ n) (h2 : n < (r + 2 ^ k) * (r + 2 ^ k)) :
    isqrtAux n k r * isqrtAux n k r ≤ n
      ∧ n < (isqrtAux n k r + 1) * (isqrtAux n k r + 1) := by
  induction k generalizing r with
  | zero => simpa [isqrtAux] using And.intro h1 h2
  | succ k ih =>
    unfold isqrtAux
    by_cases hc : (r + 2 ^ k) * (r + 2 ^ k) ≤ n
    · rw [if_pos hc]
      apply ih _ hc
      have : r + 2 ^ k + 2 ^ k = r + 2 ^ (k + 1) := by rw [pow_succ]; omega
      rw [this]
      exact h2
    · rw [if_neg hc]
      exact ih _ h1 (not_le.mp hc)

/-- The integer square root is the floor of the square root. -/
theorem isqrt_spec (n : Nat) : isqrt n * isqrt n ≤ n ∧ n < (isqrt n + 1) * (isqrt n + 1) := by
  unfold isqrt
  apply isqrtAux_spec n _ 0 (Nat.zero_le _)
  have h1 : n < 2 ^ bitLen n := lt_pow_bitLen n
  have h2 : bitLen n ≤ (bitLen n / 2 + 1) + (bitLen n / 2 + 1) := by omega
  calc n < 2 ^ bitLen n := h1
    _ ≤ 2 ^ ((bitLen n / 2 + 1) + (bitLen n / 2 + 1)) := Nat.pow_le_pow_right (by norm_num) h2
    _ = (0 + 2 ^ (bitLen n / 2 + 1)) * (0 + 2 ^ (bitLen n / 2 + 1)) := by
      rw [pow_add]; simp

set_option maxRecDepth 100000 in
/-- Reference values of binary64 arithmetic: `sqrt 2`, `0.1 + 0.2`, `1 / 3` and
`sqrt 3` have the significands known from IEEE-754 hardware. -/
theorem reference_values :
    sqrt (ofNat 2) = fin false 6369051672525773 (-52)
      ∧ add (div (ofNat 1) (ofNat 10)) (div (ofNat 2) (ofNat 10))
          = fin false 5404319552844596 (-54)
      ∧ div (ofNat 1) (ofNat 3) = fin false 6004799503160661 (-54)
      ∧ sqrt (ofNat 3) = fin false 7800463371553962 (-52) := by
  decide

end F64

/-! ## What a pass writes -/

theorem TreeQuery_of_scanLoop (tree : TTree) (buckets : StdMap) (measure sh : Bool)
    (clk : Clock) (h : scanLoop tree = .ok buckets) :
    TreeQuery tree measure sh clk = .ok (report buckets measure sh clk) := by
  simp [TreeQuery, h]

theorem listedEntries_listing (m : StdMap) : listedEntries (listing m) = m := by
  induction m with
  | nil => rfl
  | cons p rest ih =>
    have : listedEntries (listing (p :: rest)) = p :: listedEntries (listing rest) := rfl
    rw [this, ih]

theorem listedEntries_report (m : StdMap) (measure sh : Bool) (clk : Clock) :
    listedEntries (report m measure sh clk) = if sh then m else [] := by
  unfold report listedEntries
  rw [List.filterMap_append, List.filterMap_append]
  have h1 := listedEntries_listing m
  unfold listedEntries at h1
  cases sh <;> cases measure <;> simp [summaryLine, h1]

theorem summaries_listing (m : StdMap) : summaries (listing m) = [] := by
  induction m with
  | nil => rfl
  | cons p rest ih =>
    have : summaries (listing (p :: rest)) = summaries (listing rest) := rfl
    rw [this, ih]

theorem summaries_report (m : StdMap) (measure sh : Bool) (clk : Clock) :
    summaries (report m measure sh clk) = [(m.size, (StdMap.readAt 0 m).2)] := by
  unfold report summaries
  rw [List.filterMap_append, List.filterMap_append]
  have h1 := summaries_listing m
  unfold summaries at h1
  cases sh <;> cases measure <;> simp [summaryLine, h1]

theorem readAt_snd (k : Int) (m : StdMap) (h : StdMap.Ordered m) :
    (StdMap.readAt k m).2 = (StdMap.find k m).getD 0 := by
  simp [StdMap.readAt, StdMap.find_subscript_self k id m h]

set_option maxRecDepth 100000 in
theorem sampleRows_defined : ∀ r ∈ sampleRows, (rowKey r).isSome := by
  intro r hr
  simp only [sampleRows, List.mem_cons, List.mem_singleton, List.not_mem_nil, or_false] at hr
  rcases hr with rfl | rfl | rfl <;> rfl

theorem keysDefined_ofRows (rows : List (F64 × F64 × F64))
    (hdef : ∀ r ∈ rows, (rowKey r).isSome) : (TTree.ofRows rows).KeysDefined := by
  intro i hi
  have hi' : i < rows.length := hi
  obtain ⟨b, hb⟩ := Option.isSome_iff_exists.mp (hdef (rows.get ⟨i, hi'⟩) (List.get_mem _ _ _))
  exact ⟨b, rowBucket_ofRows rows i hi' b hb⟩

theorem sampleTree_defined : (TTree.ofRows sampleRows).KeysDefined :=
  keysDefined_ofRows _ sampleRows_defined

set_option maxRecDepth 100000 in
theorem sampleRowsNoZero_defined : ∀ r ∈ sampleRowsNoZero, (rowKey r).isSome := by
  intro r hr
  simp only [sampleRowsNoZero, List.mem_cons, List.mem_singleton, List.not_mem_nil,
    or_false] at hr
  rcases hr with rfl | rfl | rfl | rfl <;> rfl

/-! ## The claims on the histogram -/

/-- C1 (completeness). For a table with `N` rows whose bucket keys are all
defined, the scan loop of `TreeQuery` returns a histogram whose counts sum to
`N`. -/
theorem C1_completeness (tree : TTree) (hdef : tree.KeysDefined)
    (hN : tree.nEntries < 2 ^ 63) :
    ∃ buckets, scanLoop tree = .ok buckets ∧ StdMap.total buckets = (tree.nEntries : Int) := by
  refine ⟨hist tree.rowKeys, scanLoop_ok tree hdef, ?_⟩
  have hlen := length_rowKeys tree hdef
  rw [hist_total tree.rowKeys (by rw [hlen]; exact hN), hlen]

theorem C1_completeness_witness :
    (TTree.ofRows sampleRows).KeysDefined ∧ (TTree.ofRows sampleRows).nEntries < 2 ^ 63 ∧
      ∃ buckets, scanLoop (TTree.ofRows sampleRows) = .ok buckets ∧
        StdMap.total buckets = ((TTree.ofRows sampleRows).nEntries : Int) :=
  ⟨sampleTree_defined, by decide,
    C1_completeness (TTree.ofRows sampleRows) sampleTree_defined (by decide)⟩

theorem mem_rowKeys (tree : TTree) (k : Int) :
    k ∈ tree.rowKeys ↔ ∃ i, i < tree.nEntries ∧ tree.rowBucket i = .ok k := by
  unfold TTree.rowKeys
  rw [List.mem_filterMap]
  constructor
  · rintro ⟨i, hi, h⟩
    refine ⟨i, List.mem_range.mp hi, ?_⟩
    cases hb : tree.rowBucket i with
    | error f => rw [hb] at h; cases h
    | ok b =>
      rw [hb] at h
      have : b = k := by simpa [Except.toOption] using h
      rw [this]
  · rintro ⟨i, hi, h⟩
    exact ⟨i, List.mem_range.mpr hi, by rw [h]; rfl⟩

theorem increment_find_absent (m : StdMap) (b : Int) (h : StdMap.Ordered m)
    (hb : StdMap.find b m = none) : StdMap.find b (m.increment b) = some 1 := by
  rw [StdMap.increment, StdMap.find_subscript_self _ _ _ h, hb]
  rfl

theorem increment_find_present (m : StdMap) (b c : Int) (h : StdMap.Ordered m)
    (hb : StdMap.find b m = some c) (h0 : 0 ≤ c) (h1 : c < 2 ^ 63 - 1) :
    StdMap.find b (m.increment b) = some (c + 1) := by
  rw [StdMap.increment, StdMap.find_subscript_self _ _ _ h, hb]
  simp only [Option.getD_some]
  rw [wrap64_of_range _ (by omega) (by omega)]

/-- C2 (group-by correctness). For a table whose bucket keys are all defined
and any key `k`: the scan loop returns a histogram that holds `k` exactly when
some row has bucket key `k`, and maps `k` to the number of such rows. Each loop
step on a map with ascending keys stores count 1 for an absent bucket, adds
exactly 1 to a present count and leaves every other key as it was. -/
theorem C2_group_by (tree : TTree) (hdef : tree.KeysDefined) (hN : tree.nEntries < 2 ^ 63)
    (k : Int) :
    ∃ buckets, scanLoop tree = .ok buckets
      ∧ (k ∈ StdMap.keys buckets ↔ ∃ i, i < tree.nEntries ∧ tree.rowBucket i = .ok k)
      ∧ StdMap.find k buckets
          = (if tree.rowKeys.count k = 0 then none else some (tree.rowKeys.count k : Int))
      ∧ ∀ (m : StdMap) (i : Nat), StdMap.Ordered m → i < tree.nEntries →
          ∃ b, tree.rowBucket i = .ok b ∧ scanStep tree m i = .ok (m.increment b)
            ∧ (StdMap.find b m = none → StdMap.find b (m.increment b) = some 1)
            ∧ (∀ c, StdMap.find b m = some c → 0 ≤ c → c < 2 ^ 63 - 1 →
                StdMap.find b (m.increment b) = some (c + 1))
            ∧ ∀ j, j ≠ b → StdMap.find j (m.increment b) = StdMap.find j m := by
  have hlen := length_rowKeys tree hdef
  refine ⟨hist tree.rowKeys, scanLoop_ok tree hdef, ?_, ?_, ?_⟩
  · rw [mem_keys_hist, mem_rowKeys]
  · exact hist_find tree.rowKeys (by rw [hlen]; exact hN) k
  · intro m i hm hi
    obtain ⟨b, hb⟩ := hdef i hi
    refine ⟨b, hb, by simp [scanStep, hb], increment_find_absent m b hm, ?_, ?_⟩
    · intro c hc h0 h1
      exact increment_find_present m b c hm hc h0 h1
    · intro j hj
      exact StdMap.find_subscript_of_ne _ _ _ _ hj

theorem C2_group_by_witness :
    (TTree.ofRows sampleRowsNoZero).KeysDefined
      ∧ (TTree.ofRows sampleRowsNoZero).nEntries < 2 ^ 63
      ∧ ∃ buckets, scanLoop (TTree.ofRows sampleRowsNoZero) = .ok buckets
        ∧ ((10000 : Int) ∈ StdMap.keys buckets ↔
            ∃ i, i < (TTree.ofRows sampleRowsNoZero).nEntries
              ∧ (TTree.ofRows sampleRowsNoZero).rowBucket i = .ok 10000)
        ∧ StdMap.find 10000 buckets
            = (if (TTree.ofRows sampleRowsNoZero).rowKeys.count 10000 = 0 then none
               else some ((TTree.ofRows sampleRowsNoZero).rowKeys.count 10000 : Int))
        ∧ ∀ (m : StdMap) (i : Nat), StdMap.Ordered m →
            i < (TTree.ofRows sampleRowsNoZero).nEntries →
            ∃ b, (TTree.ofRows sampleRowsNoZero).rowBucket i = .ok b
              ∧ scanStep (TTree.ofRows sampleRowsNoZero) m i = .ok (m.increment b)
              ∧ (StdMap.find b m = none → StdMap.find b (m.increment b) = some 1)
              ∧ (∀ c, StdMap.find b m = some c → 0 ≤ c → c < 2 ^ 63 - 1 →
                  StdMap.find b (m.increment b) = some (c + 1))
              ∧ ∀ j, j ≠ b → StdMap.find j (m.increment b) = StdMap.find j m :=
  ⟨keysDefined_ofRows _ sampleRowsNoZero_defined, by decide,
    C2_group_by (TTree.ofRows sampleRowsNoZero)
      (keysDefined_ofRows _ sampleRowsNoZero_defined) (by decide) 10000⟩

/-- C3 (ordering). For a table given by its rows, with all bucket keys defined:
the listing `TreeQuery` writes when `show` is set has its bucket keys in
strictly ascending order (so none is repeated), and a table holding the same
rows in another order yields the same output. -/
theorem C3_ordering (rows rows2 : List (F64 × F64 × F64))
    (hdef : ∀ r ∈ rows, (rowKey r).isSome) (hlen : rows.length < 2 ^ 63)
    (hperm : rows.Perm rows2) (measure : Bool) (clk : Clock) :
    ∃ out, TreeQuery (TTree.ofRows rows) measure true clk = .ok out
      ∧ ((listedEntries out).map Prod.fst).Pairwise (· < ·)
      ∧ TreeQuery (TTree.ofRows rows2) measure true clk = .ok out := by
  have hdef2 : ∀ r ∈ rows2, (rowKey r).isSome := fun r hr => hdef r (hperm.mem_iff.mpr hr)
  have h1 := scanLoop_ofRows rows hdef
  have h2 := scanLoop_ofRows rows2 hdef2
  have hp : hist (rows.map (fun r => (rowKey r).getD 0))
      = hist (rows2.map (fun r => (rowKey r).getD 0)) :=
    hist_perm _ _ (hperm.map _) (by simpa using hlen)
  refine ⟨_, TreeQuery_of_scanLoop _ _ measure true clk h1, ?_, ?_⟩
  · rw [listedEntries_report]
    exact hist_ordered _
  · rw [hp]
    exact TreeQuery_of_scanLoop _ _ measure true clk h2

set_option maxRecDepth 100000 in
theorem C3_ordering_witness :
    (∀ r ∈ sampleRows, (rowKey r).isSome) ∧ sampleRows.length < 2 ^ 63
      ∧ sampleRows.Perm sampleRowsShuffled
      ∧ (∃ out, TreeQuery (TTree.ofRows sampleRows) false true sampleClock = .ok out
          ∧ ((listedEntries out).map Prod.fst).Pairwise (· < ·)
          ∧ TreeQuery (TTree.ofRows sampleRowsShuffled) false true sampleClock = .ok out)
      ∧ TreeQuery (TTree.ofRows sampleRows) false true sampleClock
          = .ok [OutLine.entry 0 1, OutLine.entry 10000 1, OutLine.entry 20000 1,
                 OutLine.summary 3 1, OutLine.runtimeInit 5, OutLine.runtimeAnalysis 4] :=
  ⟨sampleRows_defined, by decide, by decide,
    C3_ordering sampleRows sampleRowsShuffled sampleRows_defined (by decide) (by decide)
      false sampleClock, rfl⟩

/-- C7 (summary). For a table whose bucket keys are all defined, the summary line
`TreeQuery` writes reports the number of distinct bucket keys of the rows and the
number of rows with bucket key 0 (which is 0 when there is none); the lookup of
bucket 0 does not enter the reported number of buckets. -/
theorem C7_summary (tree : TTree) (hdef : tree.KeysDefined) (hN : tree.nEntries < 2 ^ 63)
    (measure sh : Bool) (clk : Clock) :
    ∃ out, TreeQuery tree measure sh clk = .ok out
      ∧ summaries out = [(tree.rowKeys.dedup.length, (tree.rowKeys.count 0 : Int))] := by
  have hlen := length_rowKeys tree hdef
  refine ⟨_, TreeQuery_of_scanLoop _ _ measure sh clk (scanLoop_ok tree hdef), ?_⟩
  rw [summaries_report, readAt_snd _ _ (hist_ordered _),
    hist_find tree.rowKeys (by rw [hlen]; exact hN) 0, hist_size, List.card_toFinset]
  by_cases h0 : tree.rowKeys.count 0 = 0
  · simp [h0]
  · simp [h0]

set_option maxRecDepth 100000 in
theorem C7_summary_witness :
    (TTree.ofRows sampleRowsNoZero).KeysDefined
      ∧ (TTree.ofRows sampleRowsNoZero).nEntries < 2 ^ 63
      ∧ (∃ out, TreeQuery (TTree.ofRows sampleRowsNoZero) false false sampleClock = .ok out
          ∧ summaries out = [((TTree.ofRows sampleRowsNoZero).rowKeys.dedup.length,
              ((TTree.ofRows sampleRowsNoZero).rowKeys.count 0 : Int))])
      ∧ TreeQuery (TTree.ofRows sampleRowsNoZero) false false sampleClock
          = .ok [OutLine.summary 3 0, OutLine.runtimeInit 5, OutLine.runtimeAnalysis 4] :=
  ⟨keysDefined_ofRows _ sampleRowsNoZero_defined, by decide,
    C7_summary (TTree.ofRows sampleRowsNoZero)
      (keysDefined_ofRows _ sampleRowsNoZero_defined) (by decide) false false sampleClock,
    rfl⟩

/-- C8 (zero rows). For a table with zero rows the scan loop returns the empty
histogram, and `TreeQuery` writes no listing line even when `show` is set; its
summary line reports 0 buckets and count 0 for bucket 0. -/
theorem C8_zero_rows (tree : TTree) (h0 : tree.nEntries = 0) (measure sh : Bool)
    (clk : Clock) :
    scanLoop tree = .ok []
      ∧ TreeQuery tree measure sh clk
          = .ok ([OutLine.summary 0 0, OutLine.runtimeInit (clk.ts_first - clk.ts_init),
                  OutLine.runtimeAnalysis (clk.ts_end - clk.ts_first)]
                ++ (if measure then [OutLine.perfStats] else [])) := by
  have hs : scanLoop tree = .ok [] := by
    unfold scanLoop
    rw [h0]
    rfl
  refine ⟨hs, ?_⟩
  rw [TreeQuery_of_scanLoop tree [] measure sh clk hs]
  cases sh <;> rfl

theorem C8_zero_rows_witness :
    (TTree.ofRows []).nEntries = 0
      ∧ scanLoop (TTree.ofRows []) = .ok []
      ∧ TreeQuery (TTree.ofRows []) false true sampleClock
          = .ok ([OutLine.summary 0 0,
                  OutLine.runtimeInit (sampleClock.ts_first - sampleClock.ts_init),
                  OutLine.runtimeAnalysis (sampleClock.ts_end - sampleClock.ts_first)]
                ++ (if false then [OutLine.perfStats] else [])) :=
  ⟨rfl, C8_zero_rows (TTree.ofRows []) rfl false true sampleClock⟩

theorem rowBucket_of_absent (tree : TTree)
    (habsent : tree.branch "H1_PX" = none ∨ tree.branch "H1_PY" = none
      ∨ tree.branch "H1_PZ" = none) (i : Nat) :
    tree.rowBucket i = .error .nullBranch := by
  unfold TTree.rowBucket rowBucketOf
  rcases habsent with h | h | h
  · rw [h]
  · rw [h]
    cases tree.branch "H1_PX" <;> rfl
  · rw [h]
    cases tree.branch "H1_PX" <;> cases tree.branch "H1_PY" <;> rfl

/-! ## The state between passes -/

theorem scanFrom_ordered (tree : TTree) (l : List Nat) (m out : StdMap)
    (hm : StdMap.Ordered m) (h : scanFrom tree m l = .ok out) : StdMap.Ordered out := by
  induction l generalizing m with
  | nil =>
    simp only [scanFrom, Except.ok.injEq] at h
    rw [← h]
    exact hm
  | cons i rest ih =>
    unfold scanFrom scanStep at h
    cases hb : tree.rowBucket i with
    | error f => simp [hb] at h
    | ok b =>
      simp only [hb] at h
      exact ih _ (StdMap.ordered_subscript _ _ _ hm) h

theorem scanLoop_ordered (tree : TTree) (out : StdMap) (h : scanLoop tree = .ok out) :
    StdMap.Ordered out :=
  scanFrom_ordered tree _ [] out (by simp [StdMap.Ordered, StdMap.keys]) h

theorem loopBody_present (px py pz : Nat → F64) (m : Machine) (i : Nat)
    (hx : m.fAddress "H1_PX" = some Slot.h1_px) (hy : m.fAddress "H1_PY" = some Slot.h1_py)
    (hz : m.fAddress "H1_PZ" = some Slot.h1_pz) :
    loopBody (some ⟨"H1_PX", px⟩) (some ⟨"H1_PY", py⟩) (some ⟨"H1_PZ", pz⟩) m i
      = match bucket (px i) (py i) (pz i) with
        | none => .error .undefinedConversion
        | some b =>
          .ok { fReadEntry := (i : Int), fAddress := m.fAddress, fPerfStats := m.fPerfStats,
                h1_px := px i, h1_py := py i, h1_pz := pz i,
                buckets := m.buckets.increment b } := by
  simp only [loopBody, GetEntry, LoadTree, hx, hy, hz, Machine.store]

theorem loopFrom_present (tree : TTree) (px py pz : Nat → F64)
    (hpx : tree.branch "H1_PX" = some px) (hpy : tree.branch "H1_PY" = some py)
    (hpz : tree.branch "H1_PZ" = some pz) (l : List Nat) (m : Machine)
    (hx : m.fAddress "H1_PX" = some Slot.h1_px) (hy : m.fAddress "H1_PY" = some Slot.h1_py)
    (hz : m.fAddress "H1_PZ" = some Slot.h1_pz) :
    (loopFrom (some ⟨"H1_PX", px⟩) (some ⟨"H1_PY", py⟩) (some ⟨"H1_PZ", pz⟩) m l).map
        Machine.buckets
      = scanFrom tree m.buckets l := by
  induction l generalizing m with
  | nil => rfl
  | cons i rest ih =>
    have hrow : tree.rowBucket i
        = match bucket (px i) (py i) (pz i) with
          | some b => .ok b
          | none => .error .undefinedConversion := by
      simp only [TTree.rowBucket, hpx, hpy, hpz, rowBucketOf]
    unfold loopFrom scanFrom scanStep
    rw [loopBody_present px py pz m i hx hy hz, hrow]
    cases hb : bucket (px i) (py i) (pz i) with
    | none => rfl
    | some b => exact ih _ hx hy hz

theorem loopFrom_absent (tree : TTree)
    (habsent : tree.branch "H1_PX" = none ∨ tree.branch "H1_PY" = none
      ∨ tree.branch "H1_PZ" = none) (l : List Nat) (m : Machine) :
    (loopFrom ((tree.branch "H1_PX").map (TBranch.mk "H1_PX"))
        ((tree.branch "H1_PY").map (TBranch.mk "H1_PY"))
        ((tree.branch "H1_PZ").map (TBranch.mk "H1_PZ")) m l).map Machine.buckets
      = scanFrom tree m.buckets l := by
  cases l with
  | nil => rfl
  | cons i rest =>
    rw [scanFrom_error tree _ i rest m.buckets (rowBucket_of_absent tree habsent i)]
    have hbody : loopBody ((tree.branch "H1_PX").map (TBranch.mk "H1_PX"))
        ((tree.branch "H1_PY").map (TBranch.mk "H1_PY"))
        ((tree.branch "H1_PZ").map (TBranch.mk "H1_PZ")) m i = .error .nullBranch := by
      unfold loopBody
      cases hx : tree.branch "H1_PX" with
      | none => rfl
      | some px =>
        have e1 : ∃ m1, GetEntry (Option.map (TBranch.mk "H1_PX") (some px)) i (LoadTree i m)
            = .ok m1 := by
          simp only [Option.map_some', GetEntry]
          cases (LoadTree i m).fAddress "H1_PX" <;> exact ⟨_, rfl⟩
        obtain ⟨m1, hm1⟩ := e1
        rw [hm1]
        cases hy : tree.branch "H1_PY" with
        | none => rfl
        | some py =>
          have e2 : ∃ m2, GetEntry (Option.map (TBranch.mk "H1_PY") (some py)) i m1
              = .ok m2 := by
            simp only [Option.map_some', GetEntry]
            cases m1.fAddress "H1_PY" <;> exact ⟨_, rfl⟩
          obtain ⟨m2, hm2⟩ := e2
          simp only [hm2]
          have hz : tree.branch "H1_PZ" = none := by
            rcases habsent with h | h | h
            · rw [hx] at h; cases h
            · rw [hy] at h; cases h
            · exact h
          rw [hz]
          rfl
    unfold loopFrom
    rw [hbody]
    rfl

theorem loopFrom_buckets (tree : TTree) (l : List Nat) (m : Machine) (hb : m.Bound tree) :
    (loopFrom ((tree.branch "H1_PX").map (TBranch.mk "H1_PX"))
        ((tree.branch "H1_PY").map (TBranch.mk "H1_PY"))
        ((tree.branch "H1_PZ").map (TBranch.mk "H1_PZ")) m l).map Machine.buckets
      = scanFrom tree m.buckets l := by
  cases hx : tree.branch "H1_PX" with
  | none => rw [← hx]; exact loopFrom_absent tree (Or.inl hx) l m
  | some px =>
    cases hy : tree.branch "H1_PY" with
    | none => rw [← hx, ← hy]; exact loopFrom_absent tree (Or.inr (Or.inl hy)) l m
    | some py =>
      cases hz : tree.branch "H1_PZ" with
      | none => rw [← hx, ← hy, ← hz]; exact loopFrom_absent tree (Or.inr (Or.inr hz)) l m
      | some pz =>
        obtain ⟨h1, h2, h3⟩ := hb
        exact loopFrom_present tree px py pz hx hy hz l m (h1 (by rw [hx]; rfl))
          (h2 (by rw [hy]; rfl)) (h3 (by rw [hz]; rfl))

theorem SetBranchAddress_snd (tree : TTree) (name : String) (slot : Slot) (m : Machine) :
    (SetBranchAddress tree name slot m).2 = (tree.branch name).map (TBranch.mk name) := by
  unfold SetBranchAddress
  cases tree.branch name <;> rfl

theorem SetBranchAddress_self (tree : TTree) (name : String) (slot : Slot) (m : Machine)
    (h : (tree.branch name).isSome) :
    (SetBranchAddress tree name slot m).1.fAddress name = some slot := by
  unfold SetBranchAddress
  cases hb : tree.branch name with
  | none => rw [hb] at h; cases h
  | some c => simp

theorem SetBranchAddress_other (tree : TTree) (name other : String) (slot : Slot)
    (m : Machine) (hne : other ≠ name) :
    (SetBranchAddress tree name slot m).1.fAddress other = m.fAddress other := by
  unfold SetBranchAddress
  cases hb : tree.branch name with
  | none => rfl
  | some c => simp [hne]

theorem bound_after_binding (tree : TTree) (m : Machine) :
    Machine.Bound
      { (SetBranchAddress tree "H1_PZ" Slot.h1_pz
          (SetBranchAddress tree "H1_PY" Slot.h1_py
            (SetBranchAddress tree "H1_PX" Slot.h1_px m).1).1).1 with buckets := [] } tree := by
  refine ⟨fun h => ?_, fun h => ?_, fun h => ?_⟩
  · show (SetBranchAddress tree "H1_PZ" Slot.h1_pz _).1.fAddress "H1_PX" = _
    rw [SetBranchAddress_other _ _ _ _ _ (by decide),
      SetBranchAddress_other _ _ _ _ _ (by decide)]
    exact SetBranchAddress_self _ _ _ _ h
  · show (SetBranchAddress tree "H1_PZ" Slot.h1_pz _).1.fAddress "H1_PY" = _
    rw [SetBranchAddress_other _ _ _ _ _ (by decide)]
    exact SetBranchAddress_self _ _ _ _ h
  · exact SetBranchAddress_self _ _ _ _ h

theorem TreeQueryRun_eq (tree : TTree) (measure sh : Bool) (clk : Clock) (m : Machine) :
    TreeQueryRun tree measure sh clk m
      = match loopFrom ((tree.branch "H1_PX").map (TBranch.mk "H1_PX"))
          ((tree.branch "H1_PY").map (TBranch.mk "H1_PY"))
          ((tree.branch "H1_PZ").map (TBranch.mk "H1_PZ"))
          { (SetBranchAddress tree "H1_PZ" Slot.h1_pz
              (SetBranchAddress tree "H1_PY" Slot.h1_py
                (SetBranchAddress tree "H1_PX" Slot.h1_px
                  (if measure then { m with fPerfStats := m.fPerfStats + 1 } else m)).1).1).1
            with buckets := [] }
          (List.range tree.nEntries) with
        | .error f => .error f
        | .ok m5 =>
          .ok ({ m5 with buckets := (StdMap.readAt 0 m5.buckets).1 },
            report m5.buckets measure sh clk) := by
  unfold TreeQueryRun
  simp only [SetBranchAddress_snd]

/-- A pass started in any state: when the scan of the table faults the pass
faults in the same way; otherwise it writes the report of the histogram of the
table and leaves behind that histogram with key `0` inserted. -/
theorem TreeQueryRun_of_scanLoop (tree : TTree) (measure sh : Bool) (clk : Clock)
    (m : Machine) :
    match scanLoop tree with
    | .error f => TreeQueryRun tree measure sh clk m = .error f
    | .ok buckets =>
      ∃ m1, TreeQueryRun tree measure sh clk m = .ok (m1, report buckets measure sh clk)
        ∧ m1.buckets = (StdMap.readAt 0 buckets).1 := by
  have hloop := loopFrom_buckets tree (List.range tree.nEntries) _
    (bound_after_binding tree (if measure then { m with fPerfStats := m.fPerfStats + 1 } else m))
  have hscan : scanFrom tree [] (List.range tree.nEntries) = scanLoop tree := rfl
  simp only [hscan] at hloop
  rw [TreeQueryRun_eq]
  cases hl : loopFrom ((tree.branch "H1_PX").map (TBranch.mk "H1_PX"))
      ((tree.branch "H1_PY").map (TBranch.mk "H1_PY"))
      ((tree.branch "H1_PZ").map (TBranch.mk "H1_PZ"))
      { (SetBranchAddress tree "H1_PZ" Slot.h1_pz
          (SetBranchAddress tree "H1_PY" Slot.h1_py
            (SetBranchAddress tree "H1_PX" Slot.h1_px
              (if measure then { m with fPerfStats := m.fPerfStats + 1 } else m)).1).1).1
        with buckets := [] }
      (List.range tree.nEntries) with
  | error f =>
    rw [hl] at hloop
    have hs : scanLoop tree = .error f := hloop.symm
    rw [hs]
  | ok m5 =>
    rw [hl] at hloop
    have hs : scanLoop tree = .ok m5.buckets := hloop.symm
    rw [hs]
    exact ⟨_, rfl, rfl⟩

theorem observed_report (buckets : StdMap) (hb : StdMap.Ordered buckets) (measure sh : Bool)
    (clk : Clock) (m : Machine) :
    observed (m, report buckets measure sh clk)
      = (if sh then buckets else [], [(buckets.size, (StdMap.find 0 buckets).getD 0)]) := by
  unfold observed
  rw [listedEntries_report, summaries_report, readAt_snd 0 buckets hb]

/-- C9 (determinism, no state carried between passes). `main` threads the state
of the process through its three calls of `TreeQuery`. Started in any state, a
pass shows the same listed pairs and summary values whatever state, clock and
`measure` flag it is given. `main` either faults in its first pass, as the scan
of the table does, or runs three passes that each write the report of the
histogram of the table: the pairs listed and the number of buckets and bucket-0
count reported are those of that histogram in every pass, although the second
and third pass start in a state that still holds the map of the pass before,
with the key `0` its summary inserted. -/
theorem C9_passes_agree (tree : TTree) (argc : Nat) (clk : Nat → Clock) (total : Nat → Int)
    (m0 : Machine) :
    (∀ (measure1 measure2 sh : Bool) (c1 c2 : Clock) (ma mb : Machine),
        (TreeQueryRun tree measure1 sh c1 ma).map observed
          = (TreeQueryRun tree measure2 sh c2 mb).map observed)
      ∧ (match scanLoop tree with
        | .error f => mainPasses tree argc clk total m0 = .error f
        | .ok buckets =>
          ∃ m1 m2 m3,
            TreeQueryRun tree (decide (3 ≤ argc)) (decide (4 ≤ argc)) (clk 0) m0
                = .ok (m1, report buckets (decide (3 ≤ argc)) (decide (4 ≤ argc)) (clk 0))
              ∧ TreeQueryRun tree (decide (3 ≤ argc)) (decide (4 ≤ argc)) (clk 1) m1
                = .ok (m2, report buckets (decide (3 ≤ argc)) (decide (4 ≤ argc)) (clk 1))
              ∧ TreeQueryRun tree (decide (3 ≤ argc)) (decide (4 ≤ argc)) (clk 2) m2
                = .ok (m3, report buckets (decide (3 ≤ argc)) (decide (4 ≤ argc)) (clk 2))
              ∧ m1.buckets = (StdMap.readAt 0 buckets).1
              ∧ m2.buckets = (StdMap.readAt 0 buckets).1
              ∧ mainPasses tree argc clk total m0
                = .ok (m3,
                    report buckets (decide (3 ≤ argc)) (decide (4 ≤ argc)) (clk 0)
                      ++ [OutLine.runTotal 0 (total 0)]
                      ++ (report buckets (decide (3 ≤ argc)) (decide (4 ≤ argc)) (clk 1)
                          ++ [OutLine.runTotal 1 (total 1)]
                          ++ (report buckets (decide (3 ≤ argc)) (decide (4 ≤ argc)) (clk 2)
                              ++ [OutLine.runTotal 2 (total 2)] ++ [])))
              ∧ ∀ (i : Nat) (m : Machine),
                  observed (m, report buckets (decide (3 ≤ argc)) (decide (4 ≤ argc)) (clk i))
                    = (if decide (4 ≤ argc) then buckets else [],
                        [(buckets.size, (StdMap.find 0 buckets).getD 0)])) := by
  constructor
  · intro measure1 measure2 sh c1 c2 ma mb
    have ha := TreeQueryRun_of_scanLoop tree measure1 sh c1 ma
    have hb := TreeQueryRun_of_scanLoop tree measure2 sh c2 mb
    cases hs : scanLoop tree with
    | error f =>
      rw [hs] at ha hb
      simp only at ha hb
      rw [ha, hb]
    | ok buckets =>
      rw [hs] at ha hb
      obtain ⟨m1, h1, _⟩ := ha
      obtain ⟨m2, h2, _⟩ := hb
      have ho := scanLoop_ordered tree buckets hs
      rw [h1, h2]
      show Except.ok (observed _) = Except.ok (observed _)
      rw [observed_report buckets ho, observed_report buckets ho]
  · have h0 := TreeQueryRun_of_scanLoop tree (decide (3 ≤ argc)) (decide (4 ≤ argc)) (clk 0) m0
    cases hs : scanLoop tree with
    | error f =>
      rw [hs] at h0
      simp only at h0 ⊢
      simp only [mainPasses, mainLoop, h0]
    | ok buckets =>
      rw [hs] at h0
      obtain ⟨m1, h1, hb1⟩ := h0
      have h1' := TreeQueryRun_of_scanLoop tree (decide (3 ≤ argc)) (decide (4 ≤ argc))
        (clk 1) m1
      rw [hs] at h1'
      obtain ⟨m2, h2, hb2⟩ := h1'
      have h2' := TreeQueryRun_of_scanLoop tree (decide (3 ≤ argc)) (decide (4 ≤ argc))
        (clk 2) m2
      rw [hs] at h2'
      obtain ⟨m3, h3, _⟩ := h2'
      refine ⟨m1, m2, m3, h1, h2, h3, hb1, hb2, ?_, ?_⟩
      · simp only [mainPasses, mainLoop, h1, h2, h3]
      · intro i m
        exact observed_report buckets (scanLoop_ordered tree buckets hs) _ _ _ m

set_option maxRecDepth 100000 in
/-- The three passes on a table with no row in bucket 0, started in a stale
state: every pass reports 3 buckets with bucket-0 count 0, and the state left
at the end holds a map of 4 entries, key `0` included. -/
theorem mainPasses_sample :
    (mainPasses (TTree.ofRows sampleRowsNoZero) 4 (fun _ => sampleClock) (fun _ => 0)
        staleMachine).map (fun r => (r.1.buckets, r.2))
      = .ok ([(0, 0), (10000, 2), (20000, 1), (50000, 1)],
          [OutLine.entry 10000 2, OutLine.entry 20000 1, OutLine.entry 50000 1,
           OutLine.summary 3 0, OutLine.runtimeInit 5, OutLine.runtimeAnalysis 4,
           OutLine.perfStats, OutLine.runTotal 0 0,
           OutLine.entry 10000 2, OutLine.entry 20000 1, OutLine.entry 50000 1,
           OutLine.summary 3 0, OutLine.runtimeInit 5, OutLine.runtimeAnalysis 4,
           OutLine.perfStats, OutLine.runTotal 1 0,
           OutLine.entry 10000 2, OutLine.entry 20000 1, OutLine.entry 50000 1,
           OutLine.summary 3 0, OutLine.runtimeInit 5, OutLine.runtimeAnalysis 4,
           OutLine.perfStats, OutLine.runTotal 2 0]) := rfl


/-- C10, as the code behaves: a tree without rows and without the branch `H1_PX`
makes the pass neither fail nor stay silent; it writes the summary line
`found 0 buckets with cnt[0] 0`. -/
theorem C10_counterexample :
    emptyTreeWithoutPX.branch "H1_PX" = none
      ∧ TreeQuery emptyTreeWithoutPX false true sampleClock
          = .ok [OutLine.summary 0 0, OutLine.runtimeInit 5, OutLine.runtimeAnalysis 4] :=
  ⟨rfl, rfl⟩

/-- C10, amended. When one of the branches `H1_PX`, `H1_PY`, `H1_PZ` is absent,
binding raises nothing and the pass goes on. Over zero rows it completes and
writes the summary line with 0 buckets and bucket-0 count 0, and no listing
line; over at least one row it stops at the first row read, made through the
null branch pointer, having written nothing. -/
theorem C10_absent_column (tree : TTree)
    (habsent : tree.branch "H1_PX" = none ∨ tree.branch "H1_PY" = none
      ∨ tree.branch "H1_PZ" = none) (measure sh : Bool) (clk : Clock) :
    TreeQuery tree measure sh clk
      = if tree.nEntries = 0 then
          .ok ([OutLine.summary 0 0, OutLine.runtimeInit (clk.ts_first - clk.ts_init),
                OutLine.runtimeAnalysis (clk.ts_end - clk.ts_first)]
              ++ (if measure then [OutLine.perfStats] else []))
        else .error .nullBranch := by
  by_cases h0 : tree.nEntries = 0
  · rw [if_pos h0]
    have hs : scanLoop tree = .ok [] := by
      unfold scanLoop
      rw [h0]
      rfl
    rw [TreeQuery_of_scanLoop tree [] measure sh clk hs]
    cases sh <;> rfl
  · rw [if_neg h0]
    have hs : scanLoop tree = .error .nullBranch := by
      unfold scanLoop
      obtain ⟨n, hn⟩ := Nat.exists_eq_succ_of_ne_zero h0
      rw [hn, List.range_succ_eq_map]
      exact scanFrom_error tree _ 0 _ [] (rowBucket_of_absent tree habsent 0)
    simp [TreeQuery, hs]

theorem C10_absent_column_witness :
    (oneRowTreeWithoutPZ.branch "H1_PX" = none ∨ oneRowTreeWithoutPZ.branch "H1_PY" = none
        ∨ oneRowTreeWithoutPZ.branch "H1_PZ" = none)
      ∧ TreeQuery oneRowTreeWithoutPZ false true sampleClock
          = (if oneRowTreeWithoutPZ.nEntries = 0 then
              .ok ([OutLine.summary 0 0,
                    OutLine.runtimeInit (sampleClock.ts_first - sampleClock.ts_init),
                    OutLine.runtimeAnalysis (sampleClock.ts_end - sampleClock.ts_first)]
                  ++ (if false then [OutLine.perfStats] else []))
            else .error .nullBranch)
      ∧ TreeQuery oneRowTreeWithoutPZ false true sampleClock = .error .nullBranch :=
  ⟨Or.inr (Or.inr rfl),
    C10_absent_column oneRowTreeWithoutPZ (Or.inr (Or.inr rfl)) false true sampleClock,
    rfl⟩

/-! ## The claims on the bucket key -/

theorem mul_fin_10000 (s : Bool) (m : Nat) (e : Int) :
    F64.mul (F64.fin s m e) (F64.ofInt 10000) = F64.roundNE s (m * 10000) e := by
  rw [F64.ofInt_10000]
  simp [F64.mul]

theorem rowKey_of_quotient (r : F64 × F64 × F64) (q : Int)
    (h : quotient (magnitude r.1 r.2.1 r.2.2) = some q) (hq : q ≤ maxQuotient) :
    rowKey r = some (q * 10000) :=
  bucket_of_quotient r.1 r.2.1 r.2.2 q h hq

set_option maxRecDepth 100000 in
/-- C4, as the code behaves: a row with momentum `2^64` along one axis has the
rounded quotient `1844674407370955`; its product with 10000 leaves the range of
`long` and the scan loop stores the key `-1616`, which is negative and not a
multiple of 10000. -/
theorem C4_counterexample :
    F64.isBinary64 hugeRow.1 = true
      ∧ hugeRow.1 = F64.ofNat (2 ^ 64)
      ∧ quotient (magnitude hugeRow.1 hugeRow.2.1 hugeRow.2.2) = some 1844674407370955
      ∧ scanLoop (TTree.ofRows [hugeRow]) = .ok [(-1616, 1)]
      ∧ ¬ (0 ≤ (-1616 : Int) ∧ (10000 : Int) ∣ -1616) :=
  ⟨by decide, by decide, by decide, rfl, by decide⟩

/-- C4, amended. When every row has a rounded quotient
`static_cast<long>(round(magnitude/10000))` of at most `922337203685477` (the
largest whose product with 10000 fits a `long`), the scan loop returns a
histogram all of whose keys are non-negative multiples of 10000. -/
theorem C4_keys_multiples (rows : List (F64 × F64 × F64))
    (hq : ∀ r ∈ rows, ∃ q, quotient (magnitude r.1 r.2.1 r.2.2) = some q ∧ q ≤ maxQuotient) :
    ∃ buckets, scanLoop (TTree.ofRows rows) = .ok buckets
      ∧ ∀ k ∈ StdMap.keys buckets, ∃ j : Nat, k = 10000 * (j : Int) := by
  have hdef : ∀ r ∈ rows, (rowKey r).isSome := by
    intro r hr
    obtain ⟨q, h1, h2⟩ := hq r hr
    rw [rowKey_of_quotient r q h1 h2]
    rfl
  refine ⟨_, scanLoop_ofRows rows hdef, ?_⟩
  intro k hk
  rw [mem_keys_hist, List.mem_map] at hk
  obtain ⟨r, hr, hrk⟩ := hk
  obtain ⟨q, h1, h2⟩ := hq r hr
  have h0 := quotient_nonneg r.1 r.2.1 r.2.2 q h1
  rw [rowKey_of_quotient r q h1 h2] at hrk
  simp only [Option.getD_some] at hrk
  refine ⟨q.toNat, ?_⟩
  rw [← hrk, Int.toNat_of_nonneg h0]
  ring

set_option maxRecDepth 100000 in
theorem sampleRows_quotients :
    ∀ r ∈ sampleRows, ∃ q, quotient (magnitude r.1 r.2.1 r.2.2) = some q ∧ q ≤ maxQuotient := by
  intro r hr
  simp only [sampleRows, List.mem_cons, List.mem_singleton, List.not_mem_nil, or_false] at hr
  rcases hr with rfl | rfl | rfl
  · exact ⟨2, by decide, by decide⟩
  · exact ⟨0, by decide, by decide⟩
  · exact ⟨1, by decide, by decide⟩

theorem C4_keys_multiples_witness :
    (∀ r ∈ sampleRows, ∃ q, quotient (magnitude r.1 r.2.1 r.2.2) = some q ∧ q ≤ maxQuotient)
      ∧ ∃ buckets, scanLoop (TTree.ofRows sampleRows) = .ok buckets
        ∧ ∀ k ∈ StdMap.keys buckets, ∃ j : Nat, k = 10000 * (j : Int) :=
  ⟨sampleRows_quotients, C4_keys_multiples sampleRows sampleRows_quotients⟩

set_option maxRecDepth 100000 in
/-- C5, as the code behaves: two finite rows on which the key of the code is not
the value of `round(magnitude / 10000.0) * 10000` truncated to a 64-bit integer.
For momentum `2^64` the code stores `-1616` where the formula has no 64-bit
value; for momentum `150000000000009984` the code stores `150000000000010000`
(an exact integer product) where the `double` product is
`150000000000009984`. -/
theorem C5_counterexample :
    (F64.isBinary64 hugeRow.1 = true
        ∧ bucket hugeRow.1 hugeRow.2.1 hugeRow.2.2 = some (-1616)
        ∧ bucketizeSpec hugeRow.1 hugeRow.2.1 hugeRow.2.2 = none)
      ∧ (F64.isBinary64 largeOddRow.1 = true
        ∧ bucket largeOddRow.1 largeOddRow.2.1 largeOddRow.2.2 = some 150000000000010000
        ∧ bucketizeSpec largeOddRow.1 largeOddRow.2.1 largeOddRow.2.2
            = some 150000000000009984) :=
  ⟨⟨by decide, by decide, by decide⟩, ⟨by decide, by decide, by decide⟩⟩

/-- C5, amended. For every column triple whose rounded quotient
`q = static_cast<long>(round(magnitude/10000))` is defined with
`q * 10000 < 2^57`, the bucket key is `q * 10000`, and it equals
`round(magnitude / 10000.0) * 10000` computed in `double` and truncated to a
64-bit integer. -/
theorem C5_bucket_formula (x y z : F64) (q : Int)
    (hq : quotient (magnitude x y z) = some q) (hb : q * 10000 < 2 ^ 57) :
    bucket x y z = some (q * 10000) ∧ bucketizeSpec x y z = some (q * 10000) := by
  have h0 := quotient_nonneg x y z q hq
  refine ⟨bucket_of_quotient x y z q hq (by unfold maxQuotient; omega), ?_⟩
  have hnn : F64.NonNeg (F64.round (F64.div (magnitude x y z) (F64.ofInt 10000))) :=
    F64.nonNeg_round _ (F64.nonNeg_div_10000 _ (F64.nonNeg_sqrt _))
  unfold bucketizeSpec
  unfold quotient at hq
  cases hrd : F64.round (F64.div (magnitude x y z) (F64.ofInt 10000)) with
  | nan => rw [hrd] at hq; simp [F64.toLong] at hq
  | inf s => rw [hrd] at hq; simp [F64.toLong] at hq
  | fin s m e =>
    rw [hrd] at hq hnn
    have he := F64.round_exponent_nonneg _ s m e hrd
    obtain ⟨j, hj⟩ : ∃ j : Nat, e = (j : Int) := ⟨e.toNat, by omega⟩
    subst hj
    rw [mul_fin_10000]
    by_cases hm : m = 0
    · subst hm
      have hq0 : q = 0 := by
        rw [F64.toLong_fin, F64.truncNat_zero] at hq
        cases s <;> simp at hq <;> omega
      subst hq0
      rw [Nat.zero_mul, F64.roundNE_zero, F64.toLong_fin, F64.truncNat_zero]
      cases s <;> simp
    · have hs : s = false := by
        rcases hnn with h | h
        · exact h
        · exact absurd h hm
      subst hs
      have hqv : q = ((m * 2 ^ j : Nat) : Int) := by
        rw [F64.toLong_fin] at hq
        simp only [Bool.false_eq_true, if_false] at hq
        split_ifs at hq
        simp only [Option.some.injEq] at hq
        rw [← hq]
        simp [F64.truncNat]
      have hAb : m * 2 ^ j * 10000 < 2 ^ 57 := by
        have : ((m * 2 ^ j * 10000 : Nat) : Int) < 2 ^ 57 := by
          push_cast
          rw [hqv] at hb
          push_cast at hb
          exact hb
        exact_mod_cast this
      have hex := F64.toRat_roundNE_exact false (m * 10000) (m * 2 ^ j * 625) (j : Int) 4
        (by rw [zpow_natCast]; push_cast; norm_num; ring) (by omega) (by norm_num)
        (by
          have h1 : ((m * 2 ^ j * 625 : Nat) : ℚ) < (2 : ℚ) ^ (53 : Nat) := by
            have : m * 2 ^ j * 625 < 2 ^ 53 := by omega
            exact_mod_cast this
          have h2 : ((m * 2 ^ j * 625 : Nat) : ℚ) * (2 : ℚ) ^ (4 : Int)
              < (2 : ℚ) ^ (53 : Nat) * (2 : ℚ) ^ (4 : Int) :=
            mul_lt_mul_of_pos_right h1 (by norm_num)
          calc ((m * 2 ^ j * 625 : Nat) : ℚ) * (2 : ℚ) ^ (4 : Int)
              < (2 : ℚ) ^ (53 : Nat) * (2 : ℚ) ^ (4 : Int) := h2
            _ < (2 : ℚ) ^ (1024 : Int) := by norm_num)
      have hval : F64.toRat (F64.roundNE false (m * 10000) (j : Int))
          = some (((m * 2 ^ j * 10000 : Nat) : ℚ)) := by
        rw [hex, Option.some.injEq]
        push_cast
        norm_num
        ring
      rw [F64.toLong_of_toRat_nat _ (F64.nonNeg_roundNE_false _ _) _ hval (by omega), hqv]
      norm_num

set_option maxRecDepth 100000 in
theorem magnitude_6000_8000 :
    magnitude (F64.ofNat 6000) (F64.ofNat 8000) (F64.ofNat 0)
      = F64.fin false 5497558138880000 (-39) := by decide

set_option maxRecDepth 100000 in
theorem C5_bucket_formula_witness :
    quotient (magnitude (F64.ofNat 6000) (F64.ofNat 8000) (F64.ofNat 0)) = some 1
      ∧ (1 : Int) * 10000 < 2 ^ 57
      ∧ (bucket (F64.ofNat 6000) (F64.ofNat 8000) (F64.ofNat 0) = some (1 * 10000)
          ∧ bucketizeSpec (F64.ofNat 6000) (F64.ofNat 8000) (F64.ofNat 0) = some (1 * 10000))
      ∧ F64.toRat (magnitude (F64.ofNat 6000) (F64.ofNat 8000) (F64.ofNat 0)) = some 10000
      ∧ scanLoop (TTree.ofRows [(F64.ofNat 6000, F64.ofNat 8000, F64.ofNat 0)])
          = .ok [(10000, 1)] :=
  ⟨by decide, by decide,
    C5_bucket_formula (F64.ofNat 6000) (F64.ofNat 8000) (F64.ofNat 0) 1 (by decide) (by decide),
    by rw [magnitude_6000_8000, F64.toRat_fin]; norm_num,
    rfl⟩

theorem halfway_magnitude_bounds (m k : Nat) (e : Int) (hm : m < 2 ^ 53)
    (h : (m : ℚ) * (2 : ℚ) ^ e = (2 * (k : ℚ) + 1) * 5000) : (2 * k + 1) * 5000 ≤ 8 * m := by
  have hN : (m : ℚ) * (2 : ℚ) ^ e = (((2 * k + 1) * 5000 : Nat) : ℚ) * (2 : ℚ) ^ (0 : Int) := by
    rw [h]; push_cast; simp
  by_cases he : e ≤ 0
  · have := F64.eq_mul_pow_of_zpow_eq m ((2 * k + 1) * 5000) e 0 hN he
    have hpow : 0 < 2 ^ (0 - e).toNat := Nat.pow_pos (by norm_num)
    have h1 : (2 * k + 1) * 5000 ≤ (2 * k + 1) * 5000 * 2 ^ (0 - e).toNat :=
      Nat.le_mul_of_pos_right _ hpow
    omega
  · have := F64.eq_mul_pow_of_zpow_eq ((2 * k + 1) * 5000) m 0 e hN.symm (by omega)
    obtain ⟨j, hj⟩ : ∃ j : Nat, (e - 0).toNat = j := ⟨_, rfl⟩
    rw [hj] at this
    by_cases hj3 : j ≤ 3
    · interval_cases j <;> omega
    · exfalso
      obtain ⟨i, hi⟩ : ∃ i : Nat, j = 4 + i := ⟨j - 4, by omega⟩
      rw [hi, pow_add] at this
      obtain ⟨w, hw⟩ : ∃ w : Nat, m * 2 ^ i = w := ⟨_, rfl⟩
      have h2 : (2 * k + 1) * 5000 = 16 * w := by rw [this, ← hw]; ring
      omega

/-- C6 (ties). Whenever the computed magnitude of a row is exactly
`(2k+1) * 5000`, halfway between the multiples `k * 10000` and `(k+1) * 10000`,
the bucket key is the upper multiple `(k+1) * 10000`: ties round away from
zero. -/
theorem C6_ties_round_up (x y z : F64) (k : Nat)
    (h : F64.toRat (magnitude x y z) = some ((2 * (k : ℚ) + 1) * 5000)) :
    bucket x y z = some (((k : Int) + 1) * 10000) := by
  have hvalid : F64.isBinary64 (magnitude x y z) = true := F64.isBinary64_sqrt _
  have hnn : F64.NonNeg (magnitude x y z) := F64.nonNeg_sqrt _
  have hq : quotient (magnitude x y z) = some ((k : Int) + 1) := by
    unfold quotient
    cases hmag : magnitude x y z with
    | nan => rw [hmag] at h; simp [F64.toRat] at h
    | inf s => rw [hmag] at h; simp [F64.toRat] at h
    | fin s m e =>
      rw [hmag] at h hvalid hnn
      rw [F64.toRat_fin] at h
      simp only [Option.some.injEq] at h
      have hm0 : m ≠ 0 := by
        intro h0
        rw [h0] at h
        have hk : (0 : ℚ) ≤ (k : ℚ) := Nat.cast_nonneg k
        simp at h
        linarith
      have hs : s = false := by
        rcases hnn with hh | hh
        · exact hh
        · exact absurd hh hm0
      subst hs
      simp only [Bool.false_eq_true, if_false, one_mul] at h
      have hmlt : m < 2 ^ 53 := by
        simp only [F64.isBinary64, Bool.and_eq_true, decide_eq_true_eq] at hvalid
        exact hvalid.1.1
      have hb := halfway_magnitude_bounds m k e hmlt h
      have hdiv := F64.toRat_div_exact false false m 10000 (2 * k + 1) e 0 (-1) hm0
        (by norm_num)
        (by rw [h]; push_cast; norm_num; ring) (by omega) (by norm_num)
        (by
          have h1 : ((2 * k + 1 : Nat) : ℚ) < (2 : ℚ) ^ (53 : Nat) := by
            have : 2 * k + 1 < 2 ^ 53 := by omega
            exact_mod_cast this
          have h2 : (0 : ℚ) ≤ ((2 * k + 1 : Nat) : ℚ) := Nat.cast_nonneg _
          calc ((2 * k + 1 : Nat) : ℚ) * (2 : ℚ) ^ (-1 : Int)
              ≤ ((2 * k + 1 : Nat) : ℚ) * 1 :=
                mul_le_mul_of_nonneg_left (by norm_num) h2
            _ < (2 : ℚ) ^ (53 : Nat) := by rw [mul_one]; exact h1
            _ < (2 : ℚ) ^ (1024 : Int) := by norm_num)
      rw [← F64.ofInt_10000] at hdiv
      have hfl : ⌊(if (false != false) then (-1 : ℚ) else 1) * ((2 * k + 1 : Nat) : ℚ)
          * (2 : ℚ) ^ (-1 : Int) + 1 / 2⌋ = (k : Int) + 1 := by
        rw [Int.floor_eq_iff]
        push_cast
        constructor <;> norm_num <;> linarith
      have hnn' : F64.NonNeg (F64.fin false m e) := Or.inl rfl
      have hround := F64.toLong_round_of_toRat _
        (F64.nonNeg_div_10000 (F64.fin false m e) hnn') _ hdiv (by rw [hfl]; omega)
      rw [hround, hfl]
  have hvalid2 : F64.isBinary64 (magnitude x y z) = true := hvalid
  have hk : (k : Int) + 1 ≤ maxQuotient := by
    cases hmag : magnitude x y z with
    | nan => rw [hmag] at h; simp [F64.toRat] at h
    | inf s => rw [hmag] at h; simp [F64.toRat] at h
    | fin s m e =>
      rw [hmag] at h hvalid hnn
      rw [F64.toRat_fin] at h
      simp only [Option.some.injEq] at h
      have hm0 : m ≠ 0 := by
        intro h0
        rw [h0] at h
        have hk : (0 : ℚ) ≤ (k : ℚ) := Nat.cast_nonneg k
        simp at h
        linarith
      have hs : s = false := by
        rcases hnn with hh | hh
        · exact hh
        · exact absurd hh hm0
      subst hs
      simp only [Bool.false_eq_true, if_false, one_mul] at h
      have hmlt : m < 2 ^ 53 := by
        simp only [F64.isBinary64, Bool.and_eq_true, decide_eq_true_eq] at hvalid
        exact hvalid.1.1
      have hb := halfway_magnitude_bounds m k e hmlt h
      unfold maxQuotient
      omega
  exact bucket_of_quotient x y z _ hq hk

set_option maxRecDepth 100000 in
theorem magnitude_3000_4000 :
    magnitude (F64.ofNat 3000) (F64.ofNat 4000) (F64.ofNat 0)
      = F64.fin false 5497558138880000 (-40) := by decide

set_option maxRecDepth 100000 in
theorem C6_ties_round_up_witness :
    F64.toRat (magnitude (F64.ofNat 3000) (F64.ofNat 4000) (F64.ofNat 0))
        = some ((2 * ((0 : Nat) : ℚ) + 1) * 5000)
      ∧ bucket (F64.ofNat 3000) (F64.ofNat 4000) (F64.ofNat 0)
          = some ((((0 : Nat) : Int) + 1) * 10000)
      ∧ bucket (F64.ofNat 3000) (F64.ofNat 4000) (F64.ofNat 0) ≠ some 0 :=
  ⟨by rw [magnitude_3000_4000, F64.toRat_fin]; norm_num,
    C6_ties_round_up (F64.ofNat 3000) (F64.ofNat 4000) (F64.ofNat 0) 0
      (by rw [magnitude_3000_4000, F64.toRat_fin]; norm_num),
    by decide⟩
